import Mathlib

/-!
Verification of `spec_implement.py` (SpeckitImplementer).

The Python module reads a markdown task file, parses unchecked checkbox
lines with `re.findall`, groups the parsed tasks into phases, simulates
execution (marking each task completed), and rewrites the file with
`re.sub`, checking the completed tasks' boxes.  Checklist files are
validated by counting checkbox items.

Strings are modelled as `List Char`.  The two regular expressions of the
module are embedded by a small backtracking matcher whose exploration
order mirrors the Python `re` engine on the constructs that occur in the
patterns: literals, the classes `\s`, `\d`, `.` and `[ xX]`, greedy
`\s*` / `\d+` / `.+`, lazy `.*?`, and greedy optional groups.
-/

namespace SpecImplement

/-- Python `\s` on the character set relevant here (ASCII whitespace). -/
def isSpaceChar (c : Char) : Bool :=
  c = ' ' || c = '\t' || c = '\n' || c = '\r' || c = '\x0b' || c = '\x0c'

/-- Python `\d` (ASCII digits). -/
def isDigitChar (c : Char) : Bool := c.isDigit

/-- Python `.` without DOTALL: any character except a newline. -/
def isDotChar (c : Char) : Bool := c != '\n'

/-- Match one literal character. -/
def litP (c : Char) : List Char → Option (List Char)
  | [] => none
  | x :: s => if x = c then some s else none

/-- Match a literal character sequence. -/
def litsP : List Char → List Char → Option (List Char)
  | [], s => some s
  | c :: cs, s => (litP c s).bind (litsP cs)

/-- Match one character of a class, returning it. -/
def clsP (p : Char → Bool) : List Char → Option (Char × List Char)
  | [] => none
  | x :: s => if p x then some (x, s) else none

/-- Splits explored by a greedy `cls*`: pairs (consumed, rest), the
longest consumed run first, exactly the backtracking order of `re`. -/
def starSplits (p : Char → Bool) : List Char → List (List Char × List Char)
  | [] => [([], [])]
  | c :: cs =>
    if p c then (starSplits p cs).map (fun x => (c :: x.1, x.2)) ++ [([], c :: cs)]
    else [([], c :: cs)]

/-- Rests explored by a greedy `cls*`, longest consumed first. -/
def starCands (p : Char → Bool) (s : List Char) : List (List Char) :=
  (starSplits p s).map (·.2)

/-- Splits explored by a greedy `cls+`: at least one character. -/
def plusSplits (p : Char → Bool) : List Char → List (List Char × List Char)
  | [] => []
  | c :: cs =>
    if p c then (starSplits p cs).map (fun x => (c :: x.1, x.2)) else []

/-- Rests explored by a lazy `cls*?`, shortest consumed first. -/
def lazyCands (p : Char → Bool) : List Char → List (List Char)
  | [] => [[]]
  | c :: cs => (c :: cs) :: (if p c then lazyCands p cs else [])

/-- First success of `f` over the backtracking candidates `xs`. -/
def firstSome : List α → (α → Option β) → Option β
  | [], _ => none
  | x :: xs, f =>
    match f x with
    | some b => some b
    | none => firstSome xs f

/-- Preference between a greedy alternative and its fallback. -/
def orElseO (a b : Option α) : Option α :=
  match a with
  | some r => some r
  | none => b

/-- The raw capture groups of one match of the task pattern
`-\s*\[\s*\]\s*(T\d{3})\s*(\[P\])?\s*(\[US\d+\])?\s*(.+)`. -/
structure RawTask where
  tid : List Char
  pmark : Bool
  smark : Option (List Char)
  descRaw : List Char
deriving Repr, DecidableEq

/-- Tail `\s*(.+)` of the task pattern: the third `\s*` and group 4. -/
def matchDescEnd (tid : List Char) (pm : Bool) (sm : Option (List Char))
    (s : List Char) : Option (RawTask × List Char) :=
  firstSome (starCands isSpaceChar s) fun t =>
    let d := t.takeWhile isDotChar
    if d.isEmpty then none
    else some (⟨tid, pm, sm, d⟩, t.dropWhile isDotChar)

/-- Optional group `(\[US\d+\])?` followed by `\s*(.+)`; the group is
greedy, so a successful group plus continuation is preferred. -/
def matchUSOpt (tid : List Char) (pm : Bool) (s : List Char) :
    Option (RawTask × List Char) :=
  orElseO
    ((litP '[' s).bind fun s1 =>
      (litP 'U' s1).bind fun s2 =>
      (litP 'S' s2).bind fun s3 =>
      firstSome (plusSplits isDigitChar s3) fun x =>
        (litP ']' x.2).bind fun s4 =>
          matchDescEnd tid pm (some ('[' :: 'U' :: 'S' :: (x.1 ++ [']']))) s4)
    (matchDescEnd tid pm none s)

/-- `\s*(\[US\d+\])?\s*(.+)` : the second `\s*` then the story group. -/
def matchTail2 (tid : List Char) (pm : Bool) (s : List Char) :
    Option (RawTask × List Char) :=
  firstSome (starCands isSpaceChar s) fun t => matchUSOpt tid pm t

/-- `\s*(\[P\])?\s*(\[US\d+\])?\s*(.+)` : the first `\s*` then the
greedy optional parallel marker. -/
def matchTail1 (tid : List Char) (s : List Char) :
    Option (RawTask × List Char) :=
  firstSome (starCands isSpaceChar s) fun t =>
    orElseO ((litsP ['[', 'P', ']'] t).bind fun t2 => matchTail2 tid true t2)
      (matchTail2 tid false t)

/-- One attempted match of the whole task pattern at the head of `s`. -/
def matchTaskAt (s : List Char) : Option (RawTask × List Char) :=
  (litP '-' s).bind fun s1 =>
  firstSome (starCands isSpaceChar s1) fun s2 =>
  (litP '[' s2).bind fun s3 =>
  firstSome (starCands isSpaceChar s3) fun s4 =>
  (litP ']' s4).bind fun s5 =>
  firstSome (starCands isSpaceChar s5) fun s6 =>
  (litP 'T' s6).bind fun s7 =>
  (clsP isDigitChar s7).bind fun x1 =>
  (clsP isDigitChar x1.2).bind fun x2 =>
  (clsP isDigitChar x2.2).bind fun x3 =>
  matchTail1 ['T', x1.1, x2.1, x3.1] x3.2

/-- `re.findall` scan: try a match at every position, left to right,
resuming after the end of each match.  Fuelled by the input length
(every successful match consumes at least two characters). -/
def findTasksAux : Nat → List Char → List RawTask
  | 0, _ => []
  | _, [] => []
  | fuel + 1, c :: cs =>
    match matchTaskAt (c :: cs) with
    | some (r, rest) => r :: findTasksAux fuel rest
    | none => findTasksAux fuel cs

/-- A task record as built by `parse_tasks`. -/
structure PyTask where
  id : List Char
  description : List Char
  is_parallel : Bool
  story : Option (List Char)
  completed : Bool
deriving Repr, DecidableEq

/-- Python `str.strip()` on the modelled whitespace set. -/
def pyStrip (s : List Char) : List Char :=
  ((s.dropWhile isSpaceChar).reverse.dropWhile isSpaceChar).reverse

/-- The record construction in the `parse_tasks` loop body; the story
marker is sliced with `[3:-1]`, removing `[US` and `]`. -/
def mkTask (r : RawTask) : PyTask :=
  { id := r.tid
  , description := pyStrip r.descRaw
  , is_parallel := r.pmark
  , story := match r.smark with
      | some g => some ((g.drop 3).dropLast)
      | none => none
  , completed := false }

/-- `SpeckitImplementer.parse_tasks` applied to the file content. -/
def parse_tasks (content : List Char) : List PyTask :=
  (findTasksAux content.length content).map mkTask

/-! ### Checklist validation (`check_checklists_status`) -/

/-- The class `[ xX]` of the checklist pattern. -/
def isBoxChar (c : Char) : Bool := c = ' ' || c = 'x' || c = 'X'

/-- One attempted match of `-\s*\[([ xX])\]\s*(.+)` at the head of `s`,
returning the two capture groups and the rest. -/
def matchChecklistAt (s : List Char) : Option ((Char × List Char) × List Char) :=
  (litP '-' s).bind fun s1 =>
  firstSome (starCands isSpaceChar s1) fun s2 =>
  (litP '[' s2).bind fun s3 =>
  (clsP isBoxChar s3).bind fun x =>
  (litP ']' x.2).bind fun s4 =>
  firstSome (starCands isSpaceChar s4) fun t =>
    let d := t.takeWhile isDotChar
    if d.isEmpty then none
    else some ((x.1, d), t.dropWhile isDotChar)

/-- `re.findall` scan for the checklist pattern. -/
def findChecklistAux : Nat → List Char → List (Char × List Char)
  | 0, _ => []
  | _, [] => []
  | fuel + 1, c :: cs =>
    match matchChecklistAt (c :: cs) with
    | some (it, rest) => it :: findChecklistAux fuel rest
    | none => findChecklistAux fuel cs

/-- All checkbox items of one checklist file. -/
def checklistItems (content : List Char) : List (Char × List Char) :=
  findChecklistAux content.length content

/-- Per-file counters computed by `check_checklists_status`. -/
structure ChecklistStats where
  total : Nat
  completed : Nat
  incomplete : Nat
deriving Repr, DecidableEq

/-- The counting loop of `check_checklists_status`: an item is completed
when `status.lower() in ['x', 'X']`, otherwise incomplete. -/
def check_checklist_stats (content : List Char) : ChecklistStats :=
  let items := checklistItems content
  let cc := items.foldl
    (fun acc it =>
      if (['x', 'X'] : List Char).contains it.1.toLower then (acc.1 + 1, acc.2)
      else (acc.1, acc.2 + 1))
    (0, 0)
  { total := items.length, completed := cc.1, incomplete := cc.2 }

/-- A checklist file reports `PASS` exactly when its `incomplete`
counter is zero (source: `"✓ PASS" if stats['incomplete'] == 0`). -/
def checklistReportsPass (content : List Char) : Bool :=
  (check_checklist_stats content).incomplete == 0

/-! ### Phase grouping and simulated execution -/

/-- Python truthiness of `task['story']` (`None` and `""` are falsy). -/
def storyFalsy (t : PyTask) : Bool :=
  match t.story with
  | none => true
  | some s => s.isEmpty

/-- Substring test: does `pat` occur inside `s` (Python `in`)? -/
def hasSub (pat : List Char) : List Char → Bool
  | [] => pat.isEmpty
  | c :: tl => pat.isPrefixOf (c :: tl) || hasSub pat tl

/-- Python `str.lower()` (ASCII). -/
def pyLower (s : List Char) : List Char := s.map Char.toLower

/-- The phase chosen for one task by `execute_implementation`. -/
def phaseOf (t : PyTask) : List Char :=
  if storyFalsy t && hasSub "setup".data (pyLower t.description) then "setup".data
  else if storyFalsy t && hasSub "foundational".data (pyLower t.description) then
    "foundational".data
  else if !storyFalsy t then t.story.getD []
  else "polish".data

/-- The batching loop of `execute_implementation`: tasks are accumulated
while the phase is unchanged; on a phase change the accumulated batch is
flushed (executed) and a new batch starts.  Tasks are indexed so that
the execution effect can be applied to the right list positions. -/
def execBatches (cur : List Char) (acc : List (Nat × PyTask)) :
    List (Nat × PyTask) → List (List (Nat × PyTask))
  | [] => if acc.isEmpty then [] else [acc]
  | t :: ts =>
    let ph := phaseOf t.2
    if ph = cur then execBatches cur (acc ++ [t]) ts
    else if acc.isEmpty then execBatches ph [t] ts
    else acc :: execBatches ph [t] ts

/-- The batches flushed by `execute_implementation`, in flush order
(initial `current_phase` is `"unknown"`). -/
def batches (ts : List PyTask) : List (List (Nat × PyTask)) :=
  execBatches "unknown".data [] ts.enum

/-- `_execute_phase_tasks`: within one batch the parallel tasks run
first, then the sequential ones. -/
def phaseExecOrder (b : List (Nat × PyTask)) : List (Nat × PyTask) :=
  b.filter (fun x => x.2.is_parallel) ++ b.filter (fun x => !x.2.is_parallel)

/-- The sequence of `_execute_single_task` calls of a whole run. -/
def execSeq (ts : List PyTask) : List (Nat × PyTask) :=
  ((batches ts).map phaseExecOrder).flatten

/-- `_execute_single_task` marks the (shared, mutable) record done. -/
def markCompleted (t : PyTask) : PyTask := { t with completed := true }

/-- The task list state after `execute_implementation`: position `i` is
marked completed exactly when some executed task has index `i`. -/
def execute_implementation (ts : List PyTask) : List PyTask :=
  ts.mapIdx fun i t =>
    if (execSeq ts).any (fun x => x.1 = i) then markCompleted t else t

/-- The claim C5 order property, written over the execution sequence:
after a sequential task no parallel task of the same phase may run. -/
def noSeqBeforePar : List (Nat × PyTask) → Bool
  | [] => true
  | x :: xs =>
    (x.2.is_parallel
      || xs.all (fun y => decide (phaseOf y.2 ≠ phaseOf x.2) || !y.2.is_parallel))
    && noSeqBeforePar xs

/-- Spec-side grouping, following the specification's words: the maximal
runs of consecutive tasks having the same phase, in file order. -/
def specRuns : List (Nat × PyTask) → List (List (Nat × PyTask))
  | [] => []
  | x :: xs =>
    match specRuns xs with
    | [] => [[x]]
    | r :: rs =>
      match r with
      | [] => [x] :: rs
      | y :: _ => if phaseOf x.2 = phaseOf y.2 then (x :: r) :: rs else [x] :: r :: rs

/-! ### Task-file rewrite (`update_tasks_file`) -/

/-- One attempted match of the dynamically built rewrite pattern
`-\s*\[\s*\]\s*{id}\s*.*?{description}` at the head of `s`; the task's
description is matched literally (the embedding covers descriptions
without regex metacharacters).  Returns the rest after the match. -/
def subMatchAt (tid desc : List Char) (s : List Char) : Option (List Char) :=
  (litP '-' s).bind fun s1 =>
  firstSome (starCands isSpaceChar s1) fun s2 =>
  (litP '[' s2).bind fun s3 =>
  firstSome (starCands isSpaceChar s3) fun s4 =>
  (litP ']' s4).bind fun s5 =>
  firstSome (starCands isSpaceChar s5) fun s6 =>
  (litsP tid s6).bind fun s7 =>
  firstSome (starCands isSpaceChar s7) fun s8 =>
  firstSome (lazyCands isDotChar s8) fun s9 =>
  litsP desc s9

/-- The replacement string built in `update_tasks_file`. -/
def mkReplacement (t : PyTask) : List Char :=
  "- [X] ".data ++ t.id
    ++ (if t.is_parallel then " [P]".data else [])
    ++ (match t.story with
        | some st => " [".data ++ st ++ "]".data
        | none => [])
    ++ " ".data ++ t.description

/-- `re.sub`: scan left to right, replacing every non-overlapping match
and resuming after its end.  Fuelled by the input length. -/
def subAllAux (tid desc repl : List Char) : Nat → List Char → List Char
  | 0, s => s
  | _, [] => []
  | fuel + 1, c :: cs =>
    match subMatchAt tid desc (c :: cs) with
    | some rest => repl ++ subAllAux tid desc repl fuel rest
    | none => c :: subAllAux tid desc repl fuel cs

/-- One `re.sub` call of the `update_tasks_file` loop. -/
def subAll (tid desc repl content : List Char) : List Char :=
  subAllAux tid desc repl content.length content

/-- `SpeckitImplementer.update_tasks_file`: for every completed task the
file content is rewritten with that task's pattern and replacement. -/
def update_tasks_file (tasks : List PyTask) (content : List Char) : List Char :=
  tasks.foldl
    (fun content t =>
      if t.completed then subAll t.id t.description (mkReplacement t) content
      else content)
    content

/-! ### The pipeline (`run` / `main`) -/

/-- Outcomes of the effectful stages of `run`, abstracted as flags: a
`true` error flag means the corresponding stage raises an exception. -/
structure RunEnv where
  checklists_pass : Bool
  load_ok : Bool
  parse_error : Bool
  exec_error : Bool
  update_error : Bool
  tasks_content : List Char
deriving Repr, DecidableEq

/-- `SpeckitImplementer.run`, returning the success flag and the final
tasks-file content.  Checklist failure and load/parse/execute errors
stop the pipeline with `False`; an `update_tasks_file` error is caught,
only logged, and `run` still returns `True`. -/
def runPipeline (env : RunEnv) : Bool × List Char :=
  if !env.checklists_pass then (false, env.tasks_content)
  else if !env.load_ok then (false, env.tasks_content)
  else if env.parse_error then (false, env.tasks_content)
  else
    let tasks := parse_tasks env.tasks_content
    if env.exec_error then (false, env.tasks_content)
    else
      let tasks := execute_implementation tasks
      if env.update_error then (true, env.tasks_content)
      else (true, update_tasks_file tasks env.tasks_content)

/-- `main`: exit code 0 when `run` returns `True`, otherwise 1. -/
def mainExitCode (env : RunEnv) : Nat :=
  if (runPipeline env).1 then 0 else 1

/-! ### CLI override of the tasks path (`main` + context loading) -/

/-- The path attributes of a `SpeckitImplementer` instance. -/
structure ImplPaths where
  feature_dir : Option (List Char)
  feature_spec : Option (List Char)
  impl_plan : Option (List Char)
  tasks : Option (List Char)
deriving Repr, DecidableEq

/-- `SpeckitImplementer.__init__`: `feature_dir or find_feature_dir()`
(an empty argument is falsy); the `discovered` argument stands for the
`find_feature_dir` filesystem walk. -/
def speckitInit (featureDirArg discovered : Option (List Char)) : ImplPaths :=
  { feature_dir :=
      match featureDirArg with
      | some d => if d.isEmpty then discovered else some d
      | none => discovered
  , feature_spec := none
  , impl_plan := none
  , tasks := none }

/-- The `main` override: `if args.tasks_file: implementer.tasks = ...`. -/
def applyTasksOverride (st : ImplPaths) (tasksFileArg : Option (List Char)) :
    ImplPaths :=
  match tasksFileArg with
  | some p => if p.isEmpty then st else { st with tasks := some p }
  | none => st

/-- `load_implementation_context`: raises when no feature directory was
found, otherwise unconditionally reassigns all three paths under the
feature directory (the file-existence checks are not modelled). -/
def load_implementation_context (st : ImplPaths) :
    Except (List Char) ImplPaths :=
  match st.feature_dir with
  | none => Except.error "feature directory not found".data
  | some d => Except.ok
      { st with
        feature_spec := some (d ++ '/' :: "spec.md".data)
      , impl_plan := some (d ++ '/' :: "plan.md".data)
      , tasks := some (d ++ '/' :: "tasks.md".data) }

/-- The tasks path that `parse_tasks` / `update_tasks_file` will use
after `main` has applied the CLI override and `run` has loaded the
context. -/
def pipelineTasksPath (featureDirArg tasksFileArg discovered : Option (List Char)) :
    Option (List Char) :=
  match load_implementation_context
      (applyTasksOverride (speckitInit featureDirArg discovered) tasksFileArg) with
  | Except.ok st => st.tasks
  | Except.error _ => none

/-! ### Canonical task-file lines

Test-harness descriptions of well-formed tasks-file contents, used to
state the per-line parsing and rewriting theorems.  These are inputs to
the embedded functions, not translations of the source. -/

/-- The data of one canonical unchecked task line
`- [ ] Tddd [P]? [USn]? description`. -/
structure TaskLine where
  d1 : Char
  d2 : Char
  d3 : Char
  par : Bool
  story : Option (List Char)
  desc : List Char
deriving Repr, DecidableEq

/-- The task identifier of a canonical line. -/
def tidOf (t : TaskLine) : List Char := ['T', t.d1, t.d2, t.d3]

/-- Rendering of a canonical unchecked task line (no trailing newline). -/
def renderTaskLine (t : TaskLine) : List Char :=
  '-' :: ' ' :: '[' :: ' ' :: ']' :: ' ' :: 'T' :: t.d1 :: t.d2 :: t.d3 ::
    ((if t.par then [' ', '[', 'P', ']'] else [])
      ++ (match t.story with
          | some n => ' ' :: '[' :: 'U' :: 'S' :: (n ++ [']'])
          | none => [])
      ++ ' ' :: t.desc)

/-- The characters between the identifier (after the single following
space) and the description in a canonical line. -/
def markerSeg (t : TaskLine) : List Char :=
  (if t.par then ['[', 'P', ']', ' '] else [])
    ++ (match t.story with
        | some n => '[' :: 'U' :: 'S' :: (n ++ [']', ' '])
        | none => [])

/-- The raw match that the task pattern produces on a canonical line. -/
def rawOf (t : TaskLine) : RawTask :=
  { tid := tidOf t
  , pmark := t.par
  , smark := t.story.map (fun n => '[' :: 'U' :: 'S' :: (n ++ [']']))
  , descRaw := t.desc }

/-- The parsed record of a canonical line (note: the stored story is the
digit part only, `[USn]` sliced by `[3:-1]`). -/
def taskLineRecord (t : TaskLine) : PyTask :=
  { id := tidOf t
  , description := t.desc
  , is_parallel := t.par
  , story := t.story
  , completed := false }

/-- Well-formedness of a canonical line for parsing: real digits, a
nonempty all-digit story tag, and a nonempty description that starts
with neither whitespace nor `[`, ends with no whitespace, and contains
no newline. -/
def wfTaskLine (t : TaskLine) : Bool :=
  isDigitChar t.d1 && isDigitChar t.d2 && isDigitChar t.d3
    && (match t.story with
        | none => true
        | some n => !n.isEmpty && n.all isDigitChar)
    && (match t.desc with
        | [] => false
        | c :: _ => !isSpaceChar c && c != '[')
    && (match t.desc.reverse with
        | [] => false
        | c :: _ => !isSpaceChar c)
    && !t.desc.contains '\n'

/-- One line of a tasks file: either a canonical task line or any other
text. -/
inductive Line where
  | junk (cs : List Char)
  | task (t : TaskLine)
deriving Repr, DecidableEq

/-- Rendering of one line (no trailing newline). -/
def renderLine : Line → List Char
  | .junk cs => cs
  | .task t => renderTaskLine t

/-- A whole tasks file: every line followed by a newline. -/
def joinLines (ls : List Line) : List Char :=
  (ls.map (fun l => renderLine l ++ ['\n'])).flatten

/-- Line well-formedness for the parsing theorems: non-task lines
contain no `-` (so no match can start inside them) and no newline. -/
def wfLine : Line → Bool
  | .junk cs => !cs.contains '-' && !cs.contains '\n'
  | .task t => wfTaskLine t

/-- The record contributed by a line, if any. -/
def lineRecord : Line → Option PyTask
  | .junk _ => none
  | .task t => some (taskLineRecord t)

/-- The raw match contributed by a line, if any. -/
def lineRaw : Line → Option RawTask
  | .junk _ => none
  | .task t => some (rawOf t)

/-- Does the task pattern match anywhere in a single line? -/
def lineHasTaskPattern (l : List Char) : Bool :=
  !(findTasksAux l.length l).isEmpty

/-- Characters that are matched literally when a description is spliced
into the rewrite pattern of `update_tasks_file`; `-` is also excluded so
that no rewrite match can start inside a description. -/
def plainDescChar (c : Char) : Bool :=
  !(['\\', '.', '^', '$', '*', '+', '?', '(', ')', '[', ']',
     '\x7b', '\x7d', '|', '-', '\n'].contains c)

/-- No occurrence of `desc` starts strictly inside `seg` when `desc`
immediately follows `seg`: the lazy `.*?` of the rewrite pattern then
stops exactly at the description. -/
def noEarlyOcc (seg desc : List Char) : Bool :=
  match seg with
  | [] => true
  | _ :: rest => !desc.isPrefixOf (seg ++ desc) && noEarlyOcc rest desc

/-- Line well-formedness for the rewriting theorems. -/
def plainTaskLine (t : TaskLine) : Bool :=
  wfTaskLine t && t.desc.all plainDescChar && noEarlyOcc (markerSeg t) t.desc

/-- Line well-formedness for the rewriting theorems. -/
def plainLine : Line → Bool
  | .junk cs => !cs.contains '-' && !cs.contains '\n'
  | .task t => plainTaskLine t

/-- The checked line that `update_tasks_file` writes for a canonical
line's (completed) record. -/
def checkedLine (t : TaskLine) : List Char :=
  mkReplacement (markCompleted (taskLineRecord t))

/-- The canonical task lines of a file. -/
def taskLines (ls : List Line) : List TaskLine :=
  ls.filterMap fun l =>
    match l with
    | .junk _ => none
    | .task t => some t

/-- The identifiers of the canonical task lines of a file. -/
def taskIds (ls : List Line) : List (List Char) :=
  (taskLines ls).map tidOf

/-- Rendering of one line when the tasks with identifiers in `done`
have already been rewritten to their checked form. -/
def renderLineDone (done : List (List Char)) : Line → List Char
  | .junk cs => cs
  | .task t => if done.contains (tidOf t) then checkedLine t else renderTaskLine t

/-- A whole tasks file in which the tasks listed in `done` are checked. -/
def joinLinesDone (done : List (List Char)) (ls : List Line) : List Char :=
  (ls.map (fun l => renderLineDone done l ++ ['\n'])).flatten

/-- The phase of the first task of a batch (helper for run lemmas). -/
def batchPhase (b : List (Nat × PyTask)) : List Char :=
  match b with
  | [] => []
  | y :: _ => phaseOf y.2

/-- Helper for relating the batching loop to `specRuns`: prepend a
pending accumulator of phase `cur` to a run list. -/
def glueRuns (acc : List (Nat × PyTask)) (cur : List Char) :
    List (List (Nat × PyTask)) → List (List (Nat × PyTask))
  | [] => [acc]
  | r :: rs =>
    match r with
    | [] => acc :: r :: rs
    | y :: _ => if phaseOf y.2 = cur then (acc ++ r) :: rs else acc :: r :: rs

end SpecImplement
namespace SpecImplement

/-! ### Combinator lemmas -/

theorem litP_cons_self {c : Char} {s : List Char} : litP c (c :: s) = some s := by
  simp [litP]

theorem litP_cons_ne {c x : Char} {s : List Char} (h : x ≠ c) :
    litP c (x :: s) = none := by
  simp [litP, h]

theorem litP_eq_some {c : Char} {s t : List Char} (h : litP c s = some t) :
    s = c :: t := by
  cases s with
  | nil => simp [litP] at h
  | cons x s =>
    by_cases hx : x = c
    · subst hx
      simp [litP] at h
      simp [h]
    · simp [litP, hx] at h

theorem litsP_append {l s : List Char} : litsP l (l ++ s) = some s := by
  induction l with
  | nil => simp [litsP]
  | cons c cs ih => simp [litsP, litP_cons_self, ih]

theorem litsP_eq_some {l s t : List Char} (h : litsP l s = some t) :
    s = l ++ t := by
  induction l generalizing s with
  | nil => simp [litsP] at h; simp [h]
  | cons c cs ih =>
    simp only [litsP, Option.bind_eq_some] at h
    obtain ⟨s1, hs1, hrest⟩ := h
    have := litP_eq_some hs1
    subst this
    simp [ih hrest]

theorem litsP_eq_none_not_starting {l s : List Char}
    (h : l.isPrefixOf s = false) : litsP l s = none := by
  induction l generalizing s with
  | nil => simp [List.isPrefixOf] at h
  | cons c cs ih =>
    cases s with
    | nil => simp [litsP, litP]
    | cons x xs =>
      by_cases hx : x = c
      · subst hx
        simp [List.isPrefixOf] at h
        simp [litsP, litP_cons_self, ih h]
      · simp [litsP, litP_cons_ne hx]

theorem firstSome_cons_some {x : α} {xs : List α} {f : α → Option β} {b : β}
    (h : f x = some b) : firstSome (x :: xs) f = some b := by
  simp [firstSome, h]

theorem firstSome_cons_none {x : α} {xs : List α} {f : α → Option β}
    (h : f x = none) : firstSome (x :: xs) f = firstSome xs f := by
  simp [firstSome, h]

theorem firstSome_eq_none {xs : List α} {f : α → Option β}
    (h : ∀ x ∈ xs, f x = none) : firstSome xs f = none := by
  induction xs with
  | nil => rfl
  | cons x xs ih =>
    rw [firstSome_cons_none (h x (by simp))]
    exact ih fun y hy => h y (by simp [hy])

theorem firstSome_eq_some {xs : List α} {f : α → Option β} {b : β}
    (h : firstSome xs f = some b) : ∃ x ∈ xs, f x = some b := by
  induction xs with
  | nil => simp [firstSome] at h
  | cons x xs ih =>
    by_cases hx : (f x).isSome
    · obtain ⟨v, hv⟩ := Option.isSome_iff_exists.mp hx
      rw [firstSome_cons_some hv] at h
      exact ⟨x, by simp, by rw [hv, h]⟩
    · have hn : f x = none := Option.not_isSome_iff_eq_none.mp (by simpa using hx)
      rw [firstSome_cons_none hn] at h
      obtain ⟨y, hy, hfy⟩ := ih h
      exact ⟨y, by simp [hy], hfy⟩

theorem starSplits_append_eq {p : Char → Bool} {s : List Char} :
    ∀ x ∈ starSplits p s, x.1 ++ x.2 = s := by
  induction s with
  | nil => intro x hx; simp [starSplits] at hx; simp [hx]
  | cons c cs ih =>
    intro x hx
    by_cases hc : p c
    · rw [starSplits, if_pos hc] at hx
      rcases List.mem_append.mp hx with h | h
      · obtain ⟨y, hy, rfl⟩ := List.mem_map.mp h
        simp [ih _ hy]
      · simp at h
        simp [h]
    · rw [starSplits, if_neg hc] at hx
      simp at hx
      simp [hx]

theorem starSplits_head {p : Char → Bool} {s : List Char} :
    ∃ tl, starSplits p s = (s.takeWhile p, s.dropWhile p) :: tl := by
  induction s with
  | nil => exact ⟨[], rfl⟩
  | cons c cs ih =>
    by_cases hc : p c
    · obtain ⟨tl, htl⟩ := ih
      refine ⟨(tl.map fun x => (c :: x.1, x.2)) ++ [([], c :: cs)], ?_⟩
      simp [starSplits, hc, htl, List.takeWhile_cons, List.dropWhile_cons]
    · exact ⟨[], by simp [starSplits, hc, List.takeWhile_cons, List.dropWhile_cons]⟩

theorem starCands_cons_pos {p : Char → Bool} {c : Char} {cs : List Char}
    (hc : p c = true) : starCands p (c :: cs) = starCands p cs ++ [c :: cs] := by
  simp [starCands, starSplits, hc, List.map_map]

theorem starCands_cons_neg {p : Char → Bool} {c : Char} {cs : List Char}
    (hc : p c = false) : starCands p (c :: cs) = [c :: cs] := by
  simp [starCands, starSplits, hc]

theorem starCands_head {p : Char → Bool} {s : List Char} :
    ∃ tl, starCands p s = s.dropWhile p :: tl := by
  obtain ⟨tl, htl⟩ := starSplits_head (p := p) (s := s)
  exact ⟨tl.map (·.2), by simp [starCands, htl]⟩

theorem starCands_mem {p : Char → Bool} {s x : List Char}
    (hx : x ∈ starCands p s) :
    x = s.dropWhile p ∨ ∃ c cs, x = c :: cs ∧ p c = true := by
  induction s with
  | nil => simp [starCands, starSplits] at hx; simp [hx, List.dropWhile]
  | cons c cs ih =>
    by_cases hc : p c
    · rw [starCands_cons_pos hc] at hx
      rcases List.mem_append.mp hx with h | h
      · rcases ih h with h1 | h1
        · exact Or.inl (by simp [List.dropWhile_cons, hc, h1])
        · exact Or.inr h1
      · simp at h
        exact Or.inr ⟨c, cs, h, hc⟩
    · rw [starCands_cons_neg (by simpa using hc)] at hx
      simp at hx
      exact Or.inl (by simp [hx, List.dropWhile_cons, hc])

theorem firstSome_starCands_commit {p : Char → Bool} {s : List Char}
    {f : List Char → Option β} {b : β} (h : f (s.dropWhile p) = some b) :
    firstSome (starCands p s) f = some b := by
  obtain ⟨tl, htl⟩ := starCands_head (p := p) (s := s)
  rw [htl]
  exact firstSome_cons_some h

theorem firstSome_starCands_none {p : Char → Bool} {s : List Char}
    {f : List Char → Option β} (hmax : f (s.dropWhile p) = none)
    (hother : ∀ c cs, p c = true → f (c :: cs) = none) :
    firstSome (starCands p s) f = none := by
  refine firstSome_eq_none fun x hx => ?_
  rcases starCands_mem hx with rfl | ⟨c, cs, rfl, hc⟩
  · exact hmax
  · exact hother c cs hc

theorem ne_of_space {c x : Char} (h : isSpaceChar c = true)
    (hx : isSpaceChar x = false) : c ≠ x := by
  intro e
  rw [e, hx] at h
  exact Bool.false_ne_true h

theorem plusSplits_mem {p : Char → Bool} {s : List Char}
    {x : List Char × List Char} (hx : x ∈ plusSplits p s) :
    x.1 ≠ [] ∧ x.1 ++ x.2 = s := by
  cases s with
  | nil => simp [plusSplits] at hx
  | cons c cs =>
    by_cases hc : p c
    · rw [plusSplits, if_pos hc] at hx
      obtain ⟨y, hy, rfl⟩ := List.mem_map.mp hx
      exact ⟨by simp, by simp [starSplits_append_eq _ hy]⟩
    · rw [plusSplits, if_neg hc] at hx
      simp at hx

theorem takeWhile_all_append {p : Char → Bool} {a r : List Char} {y : Char}
    (hall : ∀ c ∈ a, p c = true) (hy : p y = false) :
    (a ++ y :: r).takeWhile p = a := by
  induction a with
  | nil => simp [List.takeWhile_cons, hy]
  | cons c cs ih =>
    have hc := hall c (by simp)
    simp [List.takeWhile_cons, hc, ih fun d hd => hall d (by simp [hd])]

theorem dropWhile_all_append {p : Char → Bool} {a r : List Char} {y : Char}
    (hall : ∀ c ∈ a, p c = true) (hy : p y = false) :
    (a ++ y :: r).dropWhile p = y :: r := by
  induction a with
  | nil => simp [List.dropWhile_cons, hy]
  | cons c cs ih =>
    have hc := hall c (by simp)
    simp [List.dropWhile_cons, hc, ih fun d hd => hall d (by simp [hd])]

theorem plusSplits_digits {p : Char → Bool} {n r : List Char} {y : Char}
    (hn : n ≠ []) (hall : ∀ c ∈ n, p c = true) (hy : p y = false) :
    ∃ tl, plusSplits p (n ++ y :: r) = (n, y :: r) :: tl := by
  cases n with
  | nil => exact absurd rfl hn
  | cons c cs =>
    have hc := hall c (by simp)
    obtain ⟨tl, htl⟩ := starSplits_head (p := p) (s := cs ++ y :: r)
    refine ⟨tl.map fun x => (c :: x.1, x.2), ?_⟩
    simp only [List.cons_append, plusSplits, hc, if_pos, htl]
    rw [takeWhile_all_append (fun d hd => hall d (by simp [hd])) hy,
      dropWhile_all_append (fun d hd => hall d (by simp [hd])) hy]
    simp

theorem contains_false_forall {l : List Char} {a : Char}
    (h : l.contains a = false) : ∀ b ∈ l, b ≠ a := by
  intro b hb e
  subst e
  have hc := List.elem_eq_true_of_mem hb
  simp only [List.contains] at h
  rw [hc] at h
  exact Bool.false_ne_true h.symm

end SpecImplement

namespace SpecImplement

/-! ### Character-class facts -/

theorem orElseO_some {a : α} {b : Option α} : orElseO (some a) b = some a := rfl

theorem orElseO_none {b : Option α} : orElseO none b = b := rfl

theorem digit_not_space {c : Char} (h : isDigitChar c = true) :
    isSpaceChar c = false := by
  by_contra hc
  have hc' : isSpaceChar c = true := by
    revert hc
    cases isSpaceChar c <;> simp
  simp only [isSpaceChar, Bool.or_eq_true, decide_eq_true_eq] at hc'
  rcases hc' with ((((h1 | h1) | h1) | h1) | h1) | h1 <;>
    (subst h1; revert h; decide)

theorem digit_ne {c x : Char} (h : isDigitChar c = true)
    (hx : isDigitChar x = false) : c ≠ x := by
  intro e
  rw [e, hx] at h
  exact Bool.false_ne_true h

theorem not_newline_isDot {c : Char} (h : c ≠ '\n') : isDotChar c = true := by
  simp [isDotChar, h]

/-! ### The task pattern on a canonical line -/

theorem matchDescEnd_canonical {tid : List Char} {pm : Bool}
    {sm : Option (List Char)} {s desc r : List Char}
    (hdw : s.dropWhile isSpaceChar = desc ++ '\n' :: r)
    (hne : desc ≠ []) (hnl : ∀ c ∈ desc, c ≠ '\n') :
    matchDescEnd tid pm sm s = some (⟨tid, pm, sm, desc⟩, '\n' :: r) := by
  unfold matchDescEnd
  apply firstSome_starCands_commit
  rw [hdw]
  have hall : ∀ c ∈ desc, isDotChar c = true := fun c hc => not_newline_isDot (hnl c hc)
  have ht := takeWhile_all_append (p := isDotChar) (y := '\n') (r := r) hall (by decide)
  have hd := dropWhile_all_append (p := isDotChar) (y := '\n') (r := r) hall (by decide)
  have hde : desc.isEmpty = false := by
    cases desc
    · exact absurd rfl hne
    · rfl
  simp [ht, hd, hde]

theorem matchUSOpt_no_story {tid : List Char} {pm : Bool} {c : Char}
    {cs r : List Char} (hc : c ≠ '[') (hsp : isSpaceChar c = false)
    (hnl : ∀ x ∈ c :: cs, x ≠ '\n') :
    matchUSOpt tid pm ((c :: cs) ++ '\n' :: r)
      = some (⟨tid, pm, none, c :: cs⟩, '\n' :: r) := by
  unfold matchUSOpt
  rw [show litP '[' ((c :: cs) ++ '\n' :: r) = none from litP_cons_ne hc]
  rw [Option.none_bind, orElseO_none]
  exact matchDescEnd_canonical
    (by rw [List.cons_append, List.dropWhile_cons_of_neg (by simp [hsp])]) (by simp) hnl

theorem matchUSOpt_story {tid : List Char} {pm : Bool} {n : List Char}
    {c : Char} {cs r : List Char}
    (hn : n ≠ []) (hdig : ∀ d ∈ n, isDigitChar d = true)
    (hc : isSpaceChar c = false) (hnl : ∀ x ∈ c :: cs, x ≠ '\n') :
    matchUSOpt tid pm ('[' :: 'U' :: 'S' :: (n ++ ']' :: ' ' :: ((c :: cs) ++ '\n' :: r)))
      = some (⟨tid, pm, some ('[' :: 'U' :: 'S' :: (n ++ [']'])), c :: cs⟩, '\n' :: r) := by
  unfold matchUSOpt
  rw [litP_cons_self, Option.some_bind, litP_cons_self, Option.some_bind,
    litP_cons_self, Option.some_bind]
  obtain ⟨tl, htl⟩ := plusSplits_digits (p := isDigitChar) (y := ']')
    (r := ' ' :: ((c :: cs) ++ '\n' :: r)) hn hdig (by decide)
  rw [htl]
  rw [firstSome_cons_some (b := (⟨tid, pm, some ('[' :: 'U' :: 'S' :: (n ++ [']'])), c :: cs⟩, '\n' :: r)) ?_, orElseO_some]
  rw [litP_cons_self, Option.some_bind]
  exact matchDescEnd_canonical
    (by rw [List.dropWhile_cons_of_pos (by decide), List.cons_append,
          List.dropWhile_cons_of_neg (by simp [hc])])
    (by simp) hnl

end SpecImplement

namespace SpecImplement

theorem firstSome_starCands_eq {p : Char → Bool} {s : List Char}
    {f : List Char → Option β}
    (hother : ∀ c cs, p c = true → f (c :: cs) = none) :
    firstSome (starCands p s) f = f (s.dropWhile p) := by
  cases h : f (s.dropWhile p) with
  | some b => exact firstSome_starCands_commit h
  | none => exact firstSome_starCands_none h hother

theorem clsP_pos {p : Char → Bool} {x : Char} {s : List Char} (h : p x = true) :
    clsP p (x :: s) = some (x, s) := by
  simp [clsP, h]

theorem matchTail2_story {tid : List Char} {pm : Bool} {n : List Char}
    {c : Char} {cs r : List Char}
    (hn : n ≠ []) (hdig : ∀ d ∈ n, isDigitChar d = true)
    (hc : isSpaceChar c = false) (hnl : ∀ x ∈ c :: cs, x ≠ '\n') :
    matchTail2 tid pm
        (' ' :: '[' :: 'U' :: 'S' :: (n ++ ']' :: ' ' :: ((c :: cs) ++ '\n' :: r)))
      = some (⟨tid, pm, some ('[' :: 'U' :: 'S' :: (n ++ [']'])), c :: cs⟩, '\n' :: r) := by
  unfold matchTail2
  apply firstSome_starCands_commit
  rw [List.dropWhile_cons_of_pos (by decide), List.dropWhile_cons_of_neg (by decide)]
  exact matchUSOpt_story hn hdig hc hnl

theorem matchTail2_story0 {tid : List Char} {pm : Bool} {n : List Char}
    {c : Char} {cs r : List Char}
    (hn : n ≠ []) (hdig : ∀ d ∈ n, isDigitChar d = true)
    (hc : isSpaceChar c = false) (hnl : ∀ x ∈ c :: cs, x ≠ '\n') :
    matchTail2 tid pm
        ('[' :: 'U' :: 'S' :: (n ++ ']' :: ' ' :: ((c :: cs) ++ '\n' :: r)))
      = some (⟨tid, pm, some ('[' :: 'U' :: 'S' :: (n ++ [']'])), c :: cs⟩, '\n' :: r) := by
  unfold matchTail2
  apply firstSome_starCands_commit
  rw [List.dropWhile_cons_of_neg (by decide)]
  exact matchUSOpt_story hn hdig hc hnl

theorem matchTail2_noStory {tid : List Char} {pm : Bool} {c : Char}
    {cs r : List Char} (hc1 : c ≠ '[') (hcsp : isSpaceChar c = false)
    (hnl : ∀ x ∈ c :: cs, x ≠ '\n') :
    matchTail2 tid pm (' ' :: ((c :: cs) ++ '\n' :: r))
      = some (⟨tid, pm, none, c :: cs⟩, '\n' :: r) := by
  unfold matchTail2
  apply firstSome_starCands_commit
  rw [List.dropWhile_cons_of_pos (by decide), List.cons_append,
    List.dropWhile_cons_of_neg (by simp [hcsp])]
  exact matchUSOpt_no_story hc1 hcsp hnl

theorem matchTail2_noStory0 {tid : List Char} {pm : Bool} {c : Char}
    {cs r : List Char} (hc1 : c ≠ '[') (hcsp : isSpaceChar c = false)
    (hnl : ∀ x ∈ c :: cs, x ≠ '\n') :
    matchTail2 tid pm ((c :: cs) ++ '\n' :: r)
      = some (⟨tid, pm, none, c :: cs⟩, '\n' :: r) := by
  unfold matchTail2
  apply firstSome_starCands_commit
  rw [List.cons_append, List.dropWhile_cons_of_neg (by simp [hcsp])]
  exact matchUSOpt_no_story hc1 hcsp hnl

end SpecImplement

namespace SpecImplement

theorem matchTail1_both {tid : List Char} {n : List Char} {c : Char}
    {cs r : List Char}
    (hn : n ≠ []) (hdig : ∀ d ∈ n, isDigitChar d = true)
    (hc : isSpaceChar c = false) (hnl : ∀ x ∈ c :: cs, x ≠ '\n') :
    matchTail1 tid
        (' ' :: '[' :: 'P' :: ']' ::
          (' ' :: '[' :: 'U' :: 'S' :: (n ++ ']' :: ' ' :: ((c :: cs) ++ '\n' :: r))))
      = some (⟨tid, true, some ('[' :: 'U' :: 'S' :: (n ++ [']'])), c :: cs⟩, '\n' :: r) := by
  unfold matchTail1
  apply firstSome_starCands_commit
  rw [List.dropWhile_cons_of_pos (by decide), List.dropWhile_cons_of_neg (by decide)]
  simp only [litsP, litP_cons_self, Option.some_bind]
  rw [matchTail2_story hn hdig hc hnl, orElseO_some]

theorem matchTail1_par {tid : List Char} {c : Char} {cs r : List Char}
    (hc1 : c ≠ '[') (hcsp : isSpaceChar c = false)
    (hnl : ∀ x ∈ c :: cs, x ≠ '\n') :
    matchTail1 tid (' ' :: '[' :: 'P' :: ']' :: (' ' :: ((c :: cs) ++ '\n' :: r)))
      = some (⟨tid, true, none, c :: cs⟩, '\n' :: r) := by
  unfold matchTail1
  apply firstSome_starCands_commit
  rw [List.dropWhile_cons_of_pos (by decide), List.dropWhile_cons_of_neg (by decide)]
  simp only [litsP, litP_cons_self, Option.some_bind]
  rw [matchTail2_noStory hc1 hcsp hnl, orElseO_some]

theorem matchTail1_story {tid : List Char} {n : List Char} {c : Char}
    {cs r : List Char}
    (hn : n ≠ []) (hdig : ∀ d ∈ n, isDigitChar d = true)
    (hc : isSpaceChar c = false) (hnl : ∀ x ∈ c :: cs, x ≠ '\n') :
    matchTail1 tid
        (' ' :: '[' :: 'U' :: 'S' :: (n ++ ']' :: ' ' :: ((c :: cs) ++ '\n' :: r)))
      = some (⟨tid, false, some ('[' :: 'U' :: 'S' :: (n ++ [']'])), c :: cs⟩, '\n' :: r) := by
  unfold matchTail1
  apply firstSome_starCands_commit
  rw [List.dropWhile_cons_of_pos (by decide), List.dropWhile_cons_of_neg (by decide)]
  simp only [litsP, litP_cons_self, Option.some_bind,
    litP_cons_ne (show ('U' : Char) ≠ 'P' from by decide), Option.none_bind,
    orElseO_none]
  exact matchTail2_story0 hn hdig hc hnl

theorem matchTail1_plain {tid : List Char} {c : Char} {cs r : List Char}
    (hc1 : c ≠ '[') (hcsp : isSpaceChar c = false)
    (hnl : ∀ x ∈ c :: cs, x ≠ '\n') :
    matchTail1 tid (' ' :: ((c :: cs) ++ '\n' :: r))
      = some (⟨tid, false, none, c :: cs⟩, '\n' :: r) := by
  unfold matchTail1
  apply firstSome_starCands_commit
  rw [List.dropWhile_cons_of_pos (by decide), List.cons_append,
    List.dropWhile_cons_of_neg (by simp [hcsp])]
  simp only [litsP, litP_cons_ne hc1, Option.none_bind, orElseO_none]
  exact matchTail2_noStory0 hc1 hcsp hnl

theorem pyStrip_eq_self {s : List Char}
    (hh : ∃ c cs, s = c :: cs ∧ isSpaceChar c = false)
    (hl : ∃ d ds, s.reverse = d :: ds ∧ isSpaceChar d = false) :
    pyStrip s = s := by
  obtain ⟨c, cs, rfl, hc⟩ := hh
  obtain ⟨d, ds, hrev, hd⟩ := hl
  unfold pyStrip
  rw [List.dropWhile_cons_of_neg (by simp [hc]), hrev,
    List.dropWhile_cons_of_neg (by simp [hd]), ← hrev, List.reverse_reverse]

theorem wf_parts {t : TaskLine} (h : wfTaskLine t = true) :
    isDigitChar t.d1 = true ∧ isDigitChar t.d2 = true ∧ isDigitChar t.d3 = true
    ∧ (∀ n, t.story = some n → n ≠ [] ∧ ∀ d ∈ n, isDigitChar d = true)
    ∧ (∃ c cs, t.desc = c :: cs ∧ isSpaceChar c = false ∧ c ≠ '[')
    ∧ (∀ x ∈ t.desc, x ≠ '\n')
    ∧ pyStrip t.desc = t.desc := by
  obtain ⟨d1, d2, d3, par, story, desc⟩ := t
  simp only [wfTaskLine, Bool.and_eq_true] at h
  obtain ⟨⟨⟨⟨⟨⟨h1, h2⟩, h3⟩, hst⟩, hhd⟩, hls⟩, hnl⟩ := h
  cases desc with
  | nil => exact absurd hhd (by simp)
  | cons c cs =>
    simp only [Bool.and_eq_true, bne_iff_ne, Bool.not_eq_true'] at hhd
    have hnl' : ∀ x ∈ c :: cs, x ≠ '\n' :=
      contains_false_forall (by simpa using hnl)
    have hls' : ∃ d ds, (c :: cs).reverse = d :: ds ∧ isSpaceChar d = false := by
      cases hrev : (c :: cs).reverse with
      | nil => exact absurd hrev (by simp)
      | cons d ds =>
        refine ⟨d, ds, rfl, ?_⟩
        rw [hrev] at hls
        simpa using hls
    refine ⟨h1, h2, h3, ?_, ⟨c, cs, rfl, hhd.1, hhd.2⟩, hnl',
      pyStrip_eq_self ⟨c, cs, rfl, hhd.1⟩ hls'⟩
    intro n hn
    cases story with
    | none => simp at hn
    | some m =>
      cases hn
      simp only [Bool.and_eq_true, Bool.not_eq_true'] at hst
      refine ⟨?_, by simpa [List.all_eq_true] using hst.2⟩
      have := hst.1
      intro e
      rw [e] at this
      simp at this

end SpecImplement

namespace SpecImplement

theorem matchTaskAt_cons10 {d1 d2 d3 : Char} {tl : List Char}
    (h1 : isDigitChar d1 = true) (h2 : isDigitChar d2 = true)
    (h3 : isDigitChar d3 = true) :
    matchTaskAt ('-' :: ' ' :: '[' :: ' ' :: ']' :: ' ' :: 'T' :: d1 :: d2 :: d3 :: tl)
      = matchTail1 ['T', d1, d2, d3] tl := by
  unfold matchTaskAt
  rw [litP_cons_self, Option.some_bind]
  rw [firstSome_starCands_eq (fun c cs hc => by
    rw [litP_cons_ne (ne_of_space hc (by decide)), Option.none_bind])]
  rw [List.dropWhile_cons_of_pos (by decide), List.dropWhile_cons_of_neg (by decide)]
  simp only [litP_cons_self, Option.some_bind]
  rw [firstSome_starCands_eq (fun c cs hc => by
    rw [litP_cons_ne (ne_of_space hc (by decide)), Option.none_bind])]
  rw [List.dropWhile_cons_of_pos (by decide), List.dropWhile_cons_of_neg (by decide)]
  simp only [litP_cons_self, Option.some_bind]
  rw [firstSome_starCands_eq (fun c cs hc => by
    rw [litP_cons_ne (ne_of_space hc (by decide)), Option.none_bind])]
  rw [List.dropWhile_cons_of_pos (by decide), List.dropWhile_cons_of_neg (by decide)]
  simp only [litP_cons_self, Option.some_bind, clsP_pos h1, clsP_pos h2, clsP_pos h3]

theorem matchTaskAt_render {t : TaskLine} {r : List Char}
    (h : wfTaskLine t = true) :
    matchTaskAt (renderTaskLine t ++ '\n' :: r) = some (rawOf t, '\n' :: r) := by
  obtain ⟨hd1, hd2, hd3, hstory, ⟨c, cs, hdesc, hcsp, hc1⟩, hnl, hps⟩ := wf_parts h
  obtain ⟨d1, d2, d3, par, story, desc⟩ := t
  simp only at hd1 hd2 hd3 hstory hdesc hnl
  subst hdesc
  cases par <;> cases story <;>
    simp only [renderTaskLine, rawOf, tidOf, List.cons_append, List.nil_append,
      List.append_assoc, Option.map_some, Option.map_none, if_true, if_false,
      Bool.false_eq_true, if_neg, ite_false, ite_true]
  case false.none =>
    rw [matchTaskAt_cons10 hd1 hd2 hd3]
    exact matchTail1_plain hc1 hcsp hnl
  case false.some n =>
    obtain ⟨hn, hdig⟩ := hstory n rfl
    rw [matchTaskAt_cons10 hd1 hd2 hd3]
    exact matchTail1_story hn hdig hcsp hnl
  case true.none =>
    rw [matchTaskAt_cons10 hd1 hd2 hd3]
    exact matchTail1_par hc1 hcsp hnl
  case true.some n =>
    obtain ⟨hn, hdig⟩ := hstory n rfl
    rw [matchTaskAt_cons10 hd1 hd2 hd3]
    exact matchTail1_both hn hdig hcsp hnl

end SpecImplement

namespace SpecImplement

/-! ### Match-consumption bounds and scan lemmas -/

theorem litP_some_length {c : Char} {s t : List Char} (h : litP c s = some t) :
    t.length < s.length := by
  rw [litP_eq_some h]
  simp

theorem litsP_some_length {l s t : List Char} (h : litsP l s = some t) :
    t.length ≤ s.length := by
  rw [litsP_eq_some h]
  simp

theorem starCands_mem_length {p : Char → Bool} {s x : List Char}
    (hx : x ∈ starCands p s) : x.length ≤ s.length := by
  obtain ⟨y, hy, rfl⟩ := List.mem_map.mp hx
  have := starSplits_append_eq y hy
  calc y.2.length ≤ y.1.length + y.2.length := by omega
    _ = s.length := by rw [← List.length_append, this]

theorem plusSplits_mem_length {p : Char → Bool} {s : List Char}
    {x : List Char × List Char} (hx : x ∈ plusSplits p s) :
    x.2.length < s.length := by
  obtain ⟨hne, happ⟩ := plusSplits_mem hx
  have : x.1.length + x.2.length = s.length := by
    rw [← List.length_append, happ]
  cases hx1 : x.1 with
  | nil => exact absurd hx1 hne
  | cons a as =>
    rw [hx1] at this
    simp at this
    omega

theorem lazyCands_mem_length {p : Char → Bool} {s x : List Char}
    (hx : x ∈ lazyCands p s) : x.length ≤ s.length := by
  induction s with
  | nil => simp [lazyCands] at hx; simp [hx]
  | cons c cs ih =>
    rw [lazyCands] at hx
    rcases List.mem_cons.mp hx with rfl | h
    · exact le_refl _
    · by_cases hc : p c
      · rw [if_pos hc] at h
        exact Nat.le_succ_of_le (ih h)
      · rw [if_neg hc] at h
        simp at h

theorem dropWhile_length_lt {p : Char → Bool} {s : List Char}
    (h : (s.takeWhile p).isEmpty = false) :
    (s.dropWhile p).length < s.length := by
  have hsplit : s.takeWhile p ++ s.dropWhile p = s := List.takeWhile_append_dropWhile ..
  have : (s.takeWhile p).length + (s.dropWhile p).length = s.length := by
    rw [← List.length_append, hsplit]
  cases ht : s.takeWhile p with
  | nil => rw [ht] at h; simp at h
  | cons a as =>
    rw [ht] at this
    simp at this
    omega

theorem matchDescEnd_rest {tid : List Char} {pm : Bool} {sm : Option (List Char)}
    {s : List Char} {r : RawTask} {rest : List Char}
    (h : matchDescEnd tid pm sm s = some (r, rest)) : rest.length < s.length := by
  unfold matchDescEnd at h
  obtain ⟨t, ht, hf⟩ := firstSome_eq_some h
  by_cases he : (t.takeWhile isDotChar).isEmpty
  · simp only [he, if_pos] at hf
    exact absurd hf (by simp)
  · have he' : (t.takeWhile isDotChar).isEmpty = false := by
      revert he; cases (t.takeWhile isDotChar).isEmpty <;> simp
    simp only [he', if_neg, Bool.false_eq_true, if_false] at hf
    have hrest : rest = t.dropWhile isDotChar := by
      have := congrArg (fun o => Option.map Prod.snd o) hf
      simpa using this.symm
    rw [hrest]
    exact lt_of_lt_of_le (dropWhile_length_lt he') (starCands_mem_length ht)

theorem matchUSOpt_rest {tid : List Char} {pm : Bool} {s : List Char}
    {r : RawTask} {rest : List Char}
    (h : matchUSOpt tid pm s = some (r, rest)) : rest.length < s.length := by
  unfold matchUSOpt at h
  cases hbig :
      ((litP '[' s).bind fun s1 =>
        (litP 'U' s1).bind fun s2 =>
        (litP 'S' s2).bind fun s3 =>
        firstSome (plusSplits isDigitChar s3) fun x =>
          (litP ']' x.2).bind fun s4 =>
            matchDescEnd tid pm (some ('[' :: 'U' :: 'S' :: (x.1 ++ [']']))) s4) with
  | none =>
    rw [hbig, orElseO_none] at h
    exact matchDescEnd_rest h
  | some v =>
    rw [hbig, orElseO_some] at h
    cases h
    simp only [Option.bind_eq_some] at hbig
    obtain ⟨s1, hs1, s2, hs2, s3, hs3, hfs⟩ := hbig
    obtain ⟨x, hx, hfx⟩ := firstSome_eq_some hfs
    simp only [Option.bind_eq_some] at hfx
    obtain ⟨s4, hs4, hde⟩ := hfx
    have e1 := litP_some_length hs1
    have e2 := litP_some_length hs2
    have e3 := litP_some_length hs3
    have e4 : x.2.length < s3.length := plusSplits_mem_length hx
    have e5 := litP_some_length hs4
    have e6 := matchDescEnd_rest hde
    omega

theorem matchTail2_rest {tid : List Char} {pm : Bool} {s : List Char}
    {r : RawTask} {rest : List Char}
    (h : matchTail2 tid pm s = some (r, rest)) : rest.length < s.length := by
  unfold matchTail2 at h
  obtain ⟨t, ht, hf⟩ := firstSome_eq_some h
  exact lt_of_lt_of_le (matchUSOpt_rest hf) (starCands_mem_length ht)

theorem matchTail1_rest {tid : List Char} {s : List Char}
    {r : RawTask} {rest : List Char}
    (h : matchTail1 tid s = some (r, rest)) : rest.length < s.length := by
  unfold matchTail1 at h
  obtain ⟨t, ht, hf⟩ := firstSome_eq_some h
  have htl : t.length ≤ s.length := starCands_mem_length ht
  cases hbig : (litsP ['[', 'P', ']'] t).bind fun t2 => matchTail2 tid true t2 with
  | none =>
    rw [hbig, orElseO_none] at hf
    exact lt_of_lt_of_le (matchTail2_rest hf) htl
  | some v =>
    rw [hbig, orElseO_some] at hf
    cases hf
    simp only [Option.bind_eq_some] at hbig
    obtain ⟨t2, ht2, hm2⟩ := hbig
    have := litsP_some_length ht2
    have := matchTail2_rest hm2
    omega

theorem matchTaskAt_rest {s : List Char} {r : RawTask} {rest : List Char}
    (h : matchTaskAt s = some (r, rest)) : rest.length < s.length := by
  unfold matchTaskAt at h
  simp only [Option.bind_eq_some] at h
  obtain ⟨s1, hs1, h⟩ := h
  obtain ⟨s2, hs2, h⟩ := firstSome_eq_some h
  simp only [Option.bind_eq_some] at h
  obtain ⟨s3, hs3, h⟩ := h
  obtain ⟨s4, hs4, h⟩ := firstSome_eq_some h
  simp only [Option.bind_eq_some] at h
  obtain ⟨s5, hs5, h⟩ := h
  obtain ⟨s6, hs6, h⟩ := firstSome_eq_some h
  simp only [Option.bind_eq_some] at h
  obtain ⟨s7, hs7, h⟩ := h
  obtain ⟨x1, hx1, h⟩ := h
  obtain ⟨x2, hx2, h⟩ := h
  obtain ⟨x3, hx3, h⟩ := h
  have e1 := litP_some_length hs1
  have e2 := starCands_mem_length hs2
  have e3 := litP_some_length hs3
  have e4 := starCands_mem_length hs4
  have e5 := litP_some_length hs5
  have e6 := starCands_mem_length hs6
  have e7 := litP_some_length hs7
  have e8 : x1.2.length < s7.length := by
    cases s7 with
    | nil => simp [clsP] at hx1
    | cons a as =>
      by_cases ha : isDigitChar a
      · simp [clsP, ha] at hx1
        simp [← hx1]
      · simp [clsP, ha] at hx1
  have e9 : x2.2.length < x1.2.length := by
    cases hc : x1.2 with
    | nil => rw [hc] at hx2; simp [clsP] at hx2
    | cons a as =>
      rw [hc] at hx2
      by_cases ha : isDigitChar a
      · simp [clsP, ha] at hx2
        simp [← hx2]
      · simp [clsP, ha] at hx2
  have e10 : x3.2.length < x2.2.length := by
    cases hc : x2.2 with
    | nil => rw [hc] at hx3; simp [clsP] at hx3
    | cons a as =>
      rw [hc] at hx3
      by_cases ha : isDigitChar a
      · simp [clsP, ha] at hx3
        simp [← hx3]
      · simp [clsP, ha] at hx3
  have e11 := matchTail1_rest h
  omega

end SpecImplement

namespace SpecImplement

theorem findTasksAux_nil : ∀ fuel, findTasksAux fuel [] = [] := by
  intro fuel
  cases fuel <;> rfl

theorem matchTaskAt_none_head {c : Char} {s : List Char} (hc : c ≠ '-') :
    matchTaskAt (c :: s) = none := by
  unfold matchTaskAt
  rw [litP_cons_ne hc, Option.none_bind]

theorem findTasksAux_step_none {fuel : Nat} {c : Char} {cs : List Char}
    (h : matchTaskAt (c :: cs) = none) :
    findTasksAux (fuel + 1) (c :: cs) = findTasksAux fuel cs := by
  rw [findTasksAux, h]

theorem findTasksAux_step_some {fuel : Nat} {c : Char} {cs rest : List Char}
    {r : RawTask} (h : matchTaskAt (c :: cs) = some (r, rest)) :
    findTasksAux (fuel + 1) (c :: cs) = r :: findTasksAux fuel rest := by
  rw [findTasksAux, h]

theorem findTasksAux_congr : ∀ (f1 : Nat) {f2 : Nat} {s : List Char},
    s.length ≤ f1 → s.length ≤ f2 → findTasksAux f1 s = findTasksAux f2 s := by
  intro f1
  induction f1 with
  | zero =>
    intro f2 s h1 _
    have : s = [] := List.length_eq_zero.mp (Nat.le_zero.mp h1)
    subst this
    rw [findTasksAux_nil, findTasksAux_nil]
  | succ k ih =>
    intro f2 s h1 h2
    cases s with
    | nil => rw [findTasksAux_nil, findTasksAux_nil]
    | cons c cs =>
      cases f2 with
      | zero => simp at h2
      | succ m =>
        cases hm : matchTaskAt (c :: cs) with
        | some v =>
          obtain ⟨r, rest⟩ := v
          rw [findTasksAux_step_some hm, findTasksAux_step_some hm]
          have hlt := matchTaskAt_rest hm
          simp only [List.length_cons] at h1 h2 hlt
          exact congrArg _ (ih (by omega) (by omega))
        | none =>
          rw [findTasksAux_step_none hm, findTasksAux_step_none hm]
          simp only [List.length_cons] at h1 h2
          exact ih (by omega) (by omega)

theorem scan_skip : ∀ (cs : List Char) (fuel : Nat) (r : List Char),
    (∀ c ∈ cs, c ≠ '-') →
    findTasksAux (cs.length + fuel) (cs ++ r) = findTasksAux fuel r := by
  intro cs
  induction cs with
  | nil => intro fuel r _; simp
  | cons c cs ih =>
    intro fuel r h
    have h1 : (c :: cs).length + fuel = (cs.length + fuel) + 1 := by
      simp [Nat.add_right_comm]
    rw [h1, List.cons_append,
      findTasksAux_step_none (matchTaskAt_none_head (h c (by simp)))]
    exact ih fuel r fun d hd => h d (by simp [hd])

theorem joinLines_cons {l : Line} {ls : List Line} :
    joinLines (l :: ls) = renderLine l ++ '\n' :: joinLines ls := by
  simp [joinLines]

theorem joinLines_nil : joinLines [] = [] := rfl

end SpecImplement

namespace SpecImplement

theorem findTasksAux_full_step {s rest : List Char} {r : RawTask}
    (h : matchTaskAt s = some (r, rest)) :
    findTasksAux s.length s = r :: findTasksAux (s.length - 1) rest := by
  cases s with
  | nil =>
    unfold matchTaskAt at h
    simp [litP] at h
  | cons c cs =>
    simp only [List.length_cons, Nat.add_sub_cancel]
    exact findTasksAux_step_some h

theorem findTasks_join : ∀ (ls : List Line), (∀ l ∈ ls, wfLine l = true) →
    findTasksAux (joinLines ls).length (joinLines ls) = ls.filterMap lineRaw := by
  intro ls
  induction ls with
  | nil => intro _; simp [joinLines_nil, findTasksAux_nil]
  | cons l ls ih =>
    intro h
    have hl := h l (by simp)
    have hls : ∀ x ∈ ls, wfLine x = true := fun x hx => h x (by simp [hx])
    rw [joinLines_cons]
    cases l with
    | junk cs =>
      simp only [wfLine, Bool.and_eq_true, Bool.not_eq_true'] at hl
      have hdash : ∀ c ∈ cs ++ ['\n'], c ≠ '-' := by
        intro c hc
        rcases List.mem_append.mp hc with hc | hc
        · exact contains_false_forall hl.1 c hc
        · simp at hc
          simp [hc]
      have e : (renderLine (Line.junk cs)) ++ '\n' :: joinLines ls
          = (cs ++ ['\n']) ++ joinLines ls := by
        simp [renderLine]
      rw [e]
      rw [List.length_append, scan_skip _ _ _ hdash]
      simp only [List.filterMap_cons, lineRaw]
      exact ih hls
    | task t =>
      have hwt : wfTaskLine t = true := by simpa [wfLine] using hl
      have hm := matchTaskAt_render (r := joinLines ls) hwt
      have hstep := findTasksAux_full_step (s := renderTaskLine t ++ '\n' :: joinLines ls) hm
      simp only [renderLine]
      rw [hstep]
      simp only [List.filterMap_cons, lineRaw]
      congr 1
      have hlen1 : ('\n' :: joinLines ls).length
          ≤ (renderTaskLine t ++ '\n' :: joinLines ls).length - 1 := by
        have : 0 < (renderTaskLine t).length := by simp [renderTaskLine]
        simp only [List.length_append, List.length_cons]
        omega
      calc findTasksAux ((renderTaskLine t ++ '\n' :: joinLines ls).length - 1)
              ('\n' :: joinLines ls)
          = findTasksAux (('\n' :: joinLines ls).length) ('\n' :: joinLines ls) :=
            findTasksAux_congr _ hlen1 (le_refl _)
        _ = findTasksAux (joinLines ls).length (joinLines ls) := by
            rw [show ('\n' :: joinLines ls).length = (joinLines ls).length + 1 from rfl]
            exact findTasksAux_step_none (matchTaskAt_none_head (by decide))
        _ = ls.filterMap lineRaw := ih hls

theorem mkTask_rawOf {t : TaskLine} (h : wfTaskLine t = true) :
    mkTask (rawOf t) = taskLineRecord t := by
  obtain ⟨_, _, _, _, _, _, hps⟩ := wf_parts h
  cases t with
  | mk d1 d2 d3 par story desc =>
    simp only at hps
    cases story with
    | none => simp [mkTask, rawOf, taskLineRecord, hps, tidOf]
    | some n =>
      simp [mkTask, rawOf, taskLineRecord, hps, tidOf, List.dropLast_concat]

theorem parse_join {ls : List Line} (h : ∀ l ∈ ls, wfLine l = true) :
    parse_tasks (joinLines ls) = ls.filterMap lineRecord := by
  unfold parse_tasks
  rw [findTasks_join ls h]
  induction ls with
  | nil => rfl
  | cons l ls ih =>
    have hls : ∀ x ∈ ls, wfLine x = true := fun x hx => h x (by simp [hx])
    cases l with
    | junk cs =>
      simp only [List.filterMap_cons, lineRaw, lineRecord]
      exact ih hls
    | task t =>
      have hwt : wfTaskLine t = true := by
        simpa [wfLine] using h (Line.task t) (by simp)
      simp only [List.filterMap_cons, lineRaw, lineRecord, List.map_cons]
      rw [mkTask_rawOf hwt]
      exact congrArg _ (ih hls)

end SpecImplement

namespace SpecImplement

/-! ### Execution lemmas -/

theorem execBatches_flatten : ∀ (l : List (Nat × PyTask)) (cur : List Char)
    (acc : List (Nat × PyTask)), (execBatches cur acc l).flatten = acc ++ l := by
  intro l
  induction l with
  | nil =>
    intro cur acc
    by_cases h : acc.isEmpty
    · have : acc = [] := List.isEmpty_iff.mp h
      simp [execBatches, h, this]
    · have h' : acc.isEmpty = false := by
        revert h; cases acc.isEmpty <;> simp
      simp [execBatches, h']
  | cons t ts ih =>
    intro cur acc
    by_cases hph : phaseOf t.2 = cur
    · rw [execBatches, if_pos hph, ih]
      simp
    · by_cases hacc : acc.isEmpty
      · have : acc = [] := List.isEmpty_iff.mp hacc
        rw [execBatches, if_neg hph, if_pos hacc, ih]
        simp [this]
      · have hacc' : acc.isEmpty = false := by
          revert hacc; cases acc.isEmpty <;> simp
        rw [execBatches, if_neg hph, if_neg (by simp [hacc']), List.flatten_cons, ih]
        simp

theorem mem_execSeq {ts : List PyTask} {x : Nat × PyTask}
    (hx : x ∈ ts.enum) : x ∈ execSeq ts := by
  have h1 : x ∈ (batches ts).flatten := by
    rw [batches, execBatches_flatten]
    simpa using hx
  obtain ⟨b, hb, hxb⟩ := List.mem_flatten.mp h1
  unfold execSeq
  apply List.mem_flatten.mpr
  refine ⟨phaseExecOrder b, List.mem_map_of_mem _ hb, ?_⟩
  unfold phaseExecOrder
  by_cases hp : x.2.is_parallel
  · exact List.mem_append.mpr (Or.inl (List.mem_filter.mpr ⟨hxb, by simp [hp]⟩))
  · exact List.mem_append.mpr (Or.inr (List.mem_filter.mpr ⟨hxb, by simp [hp]⟩))

theorem execute_implementation_eq (ts : List PyTask) :
    execute_implementation ts = ts.map markCompleted := by
  unfold execute_implementation
  rw [List.mapIdx_eq_enum_map]
  have hcongr : ∀ x ∈ ts.enum,
      (Function.uncurry fun i t =>
        if (execSeq ts).any (fun y => y.1 = i) then markCompleted t else t) x
      = markCompleted x.2 := by
    intro x hx
    have hmem := mem_execSeq hx
    have hany : (execSeq ts).any (fun y => y.1 = x.1) = true :=
      List.any_eq_true.mpr ⟨x, hmem, by simp⟩
    simp [Function.uncurry, hany]
  rw [List.map_congr_left hcongr, show (fun x : Nat × PyTask => markCompleted x.2)
    = markCompleted ∘ Prod.snd from rfl, ← List.map_map, List.enum_map_snd]

theorem specRuns_ne_nil : ∀ (l : List (Nat × PyTask)), [] ∉ specRuns l := by
  intro l
  induction l with
  | nil => simp [specRuns]
  | cons t ts ih =>
    rw [specRuns]
    cases h : specRuns ts with
    | nil => simp
    | cons r rs =>
      rw [h] at ih
      cases r with
      | nil => exact absurd (List.mem_cons_self _ _) ih
      | cons y r' =>
        dsimp only
        by_cases hph : phaseOf t.2 = phaseOf y.2
        · rw [if_pos hph]
          intro hmem
          rcases List.mem_cons.mp hmem with hc | hc
          · simp at hc
          · exact ih (List.mem_cons.mpr (Or.inr hc))
        · rw [if_neg hph]
          intro hmem
          rcases List.mem_cons.mp hmem with hc | hc
          · simp at hc
          · exact ih hc

end SpecImplement

namespace SpecImplement

theorem execBatches_glue : ∀ (l : List (Nat × PyTask)) (cur : List Char)
    (acc : List (Nat × PyTask)), acc ≠ [] → (∀ a ∈ acc, phaseOf a.2 = cur) →
    execBatches cur acc l = glueRuns acc cur (specRuns l) := by
  intro l
  induction l with
  | nil =>
    intro cur acc hne _
    have h' : acc.isEmpty = false := by
      cases acc
      · exact absurd rfl hne
      · rfl
    simp [execBatches, h', specRuns, glueRuns]
  | cons t ts ih =>
    intro cur acc hne hall
    by_cases hph : phaseOf t.2 = cur
    · rw [execBatches, if_pos hph,
        ih cur (acc ++ [t]) (by simp) (by
          intro a ha
          rcases List.mem_append.mp ha with ha | ha
          · exact hall a ha
          · simp at ha
            simp [ha, hph])]
      rw [specRuns]
      cases h : specRuns ts with
      | nil =>
        cases acc with
        | nil => exact absurd rfl hne
        | cons a as => simp [glueRuns, hph]
      | cons r rs =>
        cases r with
        | nil => exact absurd (h ▸ List.mem_cons_self _ _) (specRuns_ne_nil ts)
        | cons y r' =>
          dsimp only [glueRuns]
          by_cases hty : phaseOf t.2 = phaseOf y.2
          · rw [if_pos hty]
            have hyc : phaseOf y.2 = cur := by rw [← hty, hph]
            simp [glueRuns, hyc, hph]
          · rw [if_neg hty]
            have hyc : ¬phaseOf y.2 = cur := fun e => hty (by rw [hph, e])
            simp [glueRuns, hyc, hph]
    · have hacc : acc.isEmpty = false := by
        cases acc
        · exact absurd rfl hne
        · rfl
      rw [execBatches, if_neg hph, if_neg (by simp [hacc]),
        ih (phaseOf t.2) [t] (by simp) (by simp)]
      rw [specRuns]
      cases h : specRuns ts with
      | nil => simp [glueRuns, hph]
      | cons r rs =>
        cases r with
        | nil => exact absurd (h ▸ List.mem_cons_self _ _) (specRuns_ne_nil ts)
        | cons y r' =>
          dsimp only [glueRuns]
          by_cases hty : phaseOf t.2 = phaseOf y.2
          · rw [if_pos hty]
            simp [glueRuns, hph, hty.symm]
          · rw [if_neg hty]
            have : ¬phaseOf y.2 = phaseOf t.2 := fun e => hty e.symm
            simp [glueRuns, hph, this]

theorem batches_eq_specRuns (ts : List PyTask) :
    batches ts = specRuns ts.enum := by
  unfold batches
  cases hl : ts.enum with
  | nil => simp [execBatches, specRuns]
  | cons t l =>
    have hstep : execBatches "unknown".data [] (t :: l)
        = execBatches (phaseOf t.2) [t] l := by
      by_cases hph : phaseOf t.2 = "unknown".data
      · rw [execBatches, if_pos hph, hph]
        simp
      · rw [execBatches, if_neg hph, if_pos (by simp)]
    rw [hstep, execBatches_glue l (phaseOf t.2) [t] (by simp) (by simp)]
    rw [specRuns]
    cases h : specRuns l with
    | nil => simp [glueRuns]
    | cons r rs =>
      cases r with
      | nil => exact absurd (h ▸ List.mem_cons_self _ _) (specRuns_ne_nil l)
      | cons y r' =>
        dsimp only [glueRuns]
        by_cases hty : phaseOf t.2 = phaseOf y.2
        · rw [if_pos hty, if_pos hty.symm]
          simp
        · rw [if_neg hty, if_neg (fun e => hty e.symm)]

theorem specRuns_flatten : ∀ (l : List (Nat × PyTask)),
    (specRuns l).flatten = l := by
  intro l
  induction l with
  | nil => rfl
  | cons t ts ih =>
    rw [specRuns]
    cases h : specRuns ts with
    | nil =>
      rw [h] at ih
      simp at ih
      simp [ih]
    | cons r rs =>
      rw [h] at ih
      cases r with
      | nil => exact absurd (h ▸ List.mem_cons_self _ _) (specRuns_ne_nil ts)
      | cons y r' =>
        dsimp only
        by_cases hty : phaseOf t.2 = phaseOf y.2
        · rw [if_pos hty]
          simp only [List.flatten_cons] at ih
          simp [List.flatten_cons, ih]
        · rw [if_neg hty]
          simp only [List.flatten_cons] at ih
          simp [List.flatten_cons, ih]

end SpecImplement

namespace SpecImplement

/-! ### Checklist counting lemmas -/

theorem count_fold_sum : ∀ (items : List (Char × List Char)) (a b : Nat),
    (items.foldl (fun acc it =>
        if (['x', 'X'] : List Char).contains it.1.toLower then (acc.1 + 1, acc.2)
        else (acc.1, acc.2 + 1)) (a, b)).1
      + (items.foldl (fun acc it =>
        if (['x', 'X'] : List Char).contains it.1.toLower then (acc.1 + 1, acc.2)
        else (acc.1, acc.2 + 1)) (a, b)).2
      = a + b + items.length := by
  intro items
  induction items with
  | nil => intro a b; simp
  | cons it its ih =>
    intro a b
    rw [List.foldl_cons]
    by_cases h : (['x', 'X'] : List Char).contains it.1.toLower
    · rw [if_pos h]
      dsimp only
      have := ih (a + 1) b
      simp only [List.length_cons]
      omega
    · rw [if_neg h]
      dsimp only
      have := ih a (b + 1)
      simp only [List.length_cons]
      omega

theorem incomplete_fold : ∀ (items : List (Char × List Char)) (a b : Nat),
    (items.foldl (fun acc it =>
        if (['x', 'X'] : List Char).contains it.1.toLower then (acc.1 + 1, acc.2)
        else (acc.1, acc.2 + 1)) (a, b)).2
      = b + (items.filter (fun it =>
          !((['x', 'X'] : List Char).contains it.1.toLower))).length := by
  intro items
  induction items with
  | nil => intro a b; simp
  | cons it its ih =>
    intro a b
    rw [List.foldl_cons]
    by_cases h : (['x', 'X'] : List Char).contains it.1.toLower
    · rw [if_pos h]
      dsimp only
      rw [List.filter_cons_of_neg (by rw [h]; simp)]
      exact ih (a + 1) b
    · have h' : (['x', 'X'] : List Char).contains it.1.toLower = false := by
        revert h
        cases (['x', 'X'] : List Char).contains it.1.toLower <;> simp
      rw [if_neg h]
      dsimp only
      rw [List.filter_cons_of_pos (by rw [h']; simp)]
      have := ih a (b + 1)
      simp only [List.length_cons]
      omega

theorem clsP_some_class {p : Char → Bool} {s : List Char} {x : Char × List Char}
    (h : clsP p s = some x) : p x.1 = true := by
  cases s with
  | nil => simp [clsP] at h
  | cons c cs =>
    by_cases hc : p c
    · simp [clsP, hc] at h
      rw [← h]
      exact hc
    · simp [clsP, hc] at h

theorem matchChecklistAt_box {s : List Char} {it : Char × List Char}
    {rest : List Char} (h : matchChecklistAt s = some (it, rest)) :
    isBoxChar it.1 = true := by
  unfold matchChecklistAt at h
  simp only [Option.bind_eq_some] at h
  obtain ⟨s1, _, h⟩ := h
  obtain ⟨s2, _, h⟩ := firstSome_eq_some h
  simp only [Option.bind_eq_some] at h
  obtain ⟨s3, _, h⟩ := h
  obtain ⟨x, hx, h⟩ := h
  obtain ⟨s4, _, h⟩ := h
  obtain ⟨t, _, hf⟩ := firstSome_eq_some h
  have hbox := clsP_some_class hx
  by_cases he : (t.takeWhile isDotChar).isEmpty
  · simp only [he, if_pos] at hf
    exact absurd hf (by simp)
  · have he' : (t.takeWhile isDotChar).isEmpty = false := by
      revert he; cases (t.takeWhile isDotChar).isEmpty <;> simp
    simp only [he', Bool.false_eq_true, if_false] at hf
    have : it = (x.1, t.takeWhile isDotChar) := by
      have := congrArg (fun o => Option.map Prod.fst o) hf
      simpa using this.symm
    rw [this]
    exact hbox

theorem findChecklistAux_box : ∀ (fuel : Nat) (s : List Char),
    ∀ it ∈ findChecklistAux fuel s, isBoxChar it.1 = true := by
  intro fuel
  induction fuel with
  | zero => intro s it h; simp [findChecklistAux] at h
  | succ k ih =>
    intro s it hit
    cases s with
    | nil => simp [findChecklistAux] at hit
    | cons c cs =>
      rw [findChecklistAux] at hit
      cases hm : matchChecklistAt (c :: cs) with
      | some v =>
        obtain ⟨it0, rest⟩ := v
        rw [hm] at hit
        rcases List.mem_cons.mp hit with rfl | hmem
        · exact matchChecklistAt_box hm
        · exact ih rest it hmem
      | none =>
        rw [hm] at hit
        exact ih cs it hit

theorem checklistItems_box {content : List Char} :
    ∀ it ∈ checklistItems content, isBoxChar it.1 = true :=
  findChecklistAux_box content.length content

theorem box_lower_iff {m : Char} (h : isBoxChar m = true) :
    ((['x', 'X'] : List Char).contains m.toLower = true) ↔ (m = 'x' ∨ m = 'X') := by
  simp only [isBoxChar, Bool.or_eq_true, decide_eq_true_eq] at h
  rcases h with (rfl | rfl) | rfl <;> simp

end SpecImplement

namespace SpecImplement

/-! ### Rewrite-pattern lemmas -/

theorem subMatchAt_rest {tid desc s rest : List Char}
    (h : subMatchAt tid desc s = some rest) : rest.length < s.length := by
  unfold subMatchAt at h
  simp only [Option.bind_eq_some] at h
  obtain ⟨s1, hs1, h⟩ := h
  obtain ⟨s2, hs2, h⟩ := firstSome_eq_some h
  simp only [Option.bind_eq_some] at h
  obtain ⟨s3, hs3, h⟩ := h
  obtain ⟨s4, hs4, h⟩ := firstSome_eq_some h
  simp only [Option.bind_eq_some] at h
  obtain ⟨s5, hs5, h⟩ := h
  obtain ⟨s6, hs6, h⟩ := firstSome_eq_some h
  simp only [Option.bind_eq_some] at h
  obtain ⟨s7, hs7, h⟩ := h
  obtain ⟨s8, hs8, h⟩ := firstSome_eq_some h
  obtain ⟨s9, hs9, h⟩ := firstSome_eq_some h
  have e1 := litP_some_length hs1
  have e2 := starCands_mem_length hs2
  have e3 := litP_some_length hs3
  have e4 := starCands_mem_length hs4
  have e5 := litP_some_length hs5
  have e6 := starCands_mem_length hs6
  have e7 := litsP_some_length hs7
  have e8 := starCands_mem_length hs8
  have e9 := lazyCands_mem_length hs9
  have e10 := litsP_some_length h
  omega

theorem subMatchAt_none_head {tid desc : List Char} {c : Char} {s : List Char}
    (hc : c ≠ '-') : subMatchAt tid desc (c :: s) = none := by
  unfold subMatchAt
  rw [litP_cons_ne hc, Option.none_bind]

theorem subAllAux_nil : ∀ (tid desc repl : List Char) (fuel : Nat),
    subAllAux tid desc repl fuel [] = [] := by
  intro tid desc repl fuel
  cases fuel <;> rfl

theorem subAllAux_step_none {tid desc repl : List Char} {fuel : Nat} {c : Char}
    {cs : List Char} (h : subMatchAt tid desc (c :: cs) = none) :
    subAllAux tid desc repl (fuel + 1) (c :: cs)
      = c :: subAllAux tid desc repl fuel cs := by
  rw [subAllAux, h]

theorem subAllAux_step_some {tid desc repl : List Char} {fuel : Nat} {c : Char}
    {cs rest : List Char} (h : subMatchAt tid desc (c :: cs) = some rest) :
    subAllAux tid desc repl (fuel + 1) (c :: cs)
      = repl ++ subAllAux tid desc repl fuel rest := by
  rw [subAllAux, h]

theorem subAllAux_congr {tid desc repl : List Char} : ∀ (f1 : Nat) {f2 : Nat}
    {s : List Char}, s.length ≤ f1 → s.length ≤ f2 →
    subAllAux tid desc repl f1 s = subAllAux tid desc repl f2 s := by
  intro f1
  induction f1 with
  | zero =>
    intro f2 s h1 _
    have : s = [] := List.length_eq_zero.mp (Nat.le_zero.mp h1)
    subst this
    rw [subAllAux_nil, subAllAux_nil]
  | succ k ih =>
    intro f2 s h1 h2
    cases s with
    | nil => rw [subAllAux_nil, subAllAux_nil]
    | cons c cs =>
      cases f2 with
      | zero => simp at h2
      | succ m =>
        cases hm : subMatchAt tid desc (c :: cs) with
        | some rest =>
          rw [subAllAux_step_some hm, subAllAux_step_some hm]
          have hlt := subMatchAt_rest hm
          simp only [List.length_cons] at h1 h2 hlt
          exact congrArg _ (ih (by omega) (by omega))
        | none =>
          rw [subAllAux_step_none hm, subAllAux_step_none hm]
          simp only [List.length_cons] at h1 h2
          exact congrArg _ (ih (by omega) (by omega))

theorem subAll_skip {tid desc repl : List Char} :
    ∀ (cs : List Char) (fuel : Nat) (r : List Char), (∀ c ∈ cs, c ≠ '-') →
    subAllAux tid desc repl (cs.length + fuel) (cs ++ r)
      = cs ++ subAllAux tid desc repl fuel r := by
  intro cs
  induction cs with
  | nil => intro fuel r _; simp
  | cons c cs ih =>
    intro fuel r h
    have h1 : (c :: cs).length + fuel = (cs.length + fuel) + 1 := by
      simp [Nat.add_right_comm]
    rw [h1, List.cons_append,
      subAllAux_step_none (subMatchAt_none_head (h c (by simp)))]
    rw [ih fuel r fun d hd => h d (by simp [hd])]
    rfl

end SpecImplement

namespace SpecImplement

theorem lazyCands_head {p : Char → Bool} {s : List Char} :
    ∃ tl, lazyCands p s = s :: tl := by
  cases s with
  | nil => exact ⟨[], rfl⟩
  | cons c cs => exact ⟨_, rfl⟩

theorem isPrefixOf_append_stable {l : List Char} : ∀ {a t : List Char},
    l.length ≤ a.length → l.isPrefixOf (a ++ t) = l.isPrefixOf a := by
  induction l with
  | nil => intro a t _; simp [List.isPrefixOf]
  | cons c cs ih =>
    intro a t hlen
    cases a with
    | nil => simp at hlen
    | cons x xs =>
      simp only [List.cons_append, List.isPrefixOf, List.append_eq]
      simp only [List.length_cons] at hlen
      rw [ih (by omega)]

theorem lazy_desc_commit {desc : List Char} : ∀ (seg : List Char) {tail : List Char},
    noEarlyOcc seg desc = true → (∀ c ∈ seg, c ≠ '\n') →
    firstSome (lazyCands isDotChar (seg ++ desc ++ tail)) (litsP desc)
      = some tail := by
  intro seg
  induction seg with
  | nil =>
    intro tail _ _
    simp only [List.nil_append]
    obtain ⟨tl, htl⟩ := lazyCands_head (p := isDotChar) (s := desc ++ tail)
    rw [htl]
    exact firstSome_cons_some (litsP_append)
  | cons c seg' ih =>
    intro tail hno hnl
    simp only [noEarlyOcc, Bool.and_eq_true, Bool.not_eq_true'] at hno
    obtain ⟨hpre, hno'⟩ := hno
    have hfail : litsP desc ((c :: seg') ++ desc ++ tail) = none := by
      apply litsP_eq_none_not_starting
      rw [isPrefixOf_append_stable (by simp; omega)]
      exact hpre
    have hdot : isDotChar c = true := not_newline_isDot (hnl c (by simp))
    rw [List.cons_append, List.cons_append, lazyCands]
    rw [firstSome_cons_none (by
      rw [← List.cons_append, ← List.cons_append]
      exact hfail)]
    rw [if_pos hdot]
    exact ih hno' fun d hd => hnl d (by simp [hd])

theorem subMatch_checked_head {tid desc : List Char} {rest : List Char} :
    subMatchAt tid desc ('-' :: ' ' :: '[' :: 'X' :: rest) = none := by
  unfold subMatchAt
  rw [litP_cons_self, Option.some_bind]
  apply firstSome_starCands_none
  · rw [List.dropWhile_cons_of_pos (by decide), List.dropWhile_cons_of_neg (by decide)]
    rw [litP_cons_self, Option.some_bind]
    apply firstSome_starCands_none
    · rw [List.dropWhile_cons_of_neg (by decide)]
      rw [litP_cons_ne (by decide), Option.none_bind]
    · intro c cs hc
      rw [litP_cons_ne (ne_of_space hc (by decide)), Option.none_bind]
  · intro c cs hc
    rw [litP_cons_ne (ne_of_space hc (by decide)), Option.none_bind]

theorem litsP_digits_ne {a1 a2 a3 b1 b2 b3 : Char} {rest : List Char}
    (hne : ¬(b1 = a1 ∧ b2 = a2 ∧ b3 = a3)) :
    litsP [a1, a2, a3] (b1 :: b2 :: b3 :: rest) = none := by
  by_cases h1 : b1 = a1
  · subst h1
    simp only [litsP, litP_cons_self, Option.some_bind]
    by_cases h2 : b2 = a2
    · subst h2
      simp only [litP_cons_self, Option.some_bind]
      by_cases h3 : b3 = a3
      · exact absurd ⟨rfl, rfl, h3⟩ hne
      · rw [litP_cons_ne h3, Option.none_bind]
    · rw [litP_cons_ne h2, Option.none_bind]
  · simp only [litsP]
    rw [litP_cons_ne h1, Option.none_bind]

theorem subMatch_wrongid_head {a1 a2 a3 b1 b2 b3 : Char} {desc rest : List Char}
    (hne : ¬(b1 = a1 ∧ b2 = a2 ∧ b3 = a3)) :
    subMatchAt ['T', a1, a2, a3] desc
      ('-' :: ' ' :: '[' :: ' ' :: ']' :: ' ' :: 'T' :: b1 :: b2 :: b3 :: rest)
      = none := by
  unfold subMatchAt
  rw [litP_cons_self, Option.some_bind]
  apply firstSome_starCands_none
  · rw [List.dropWhile_cons_of_pos (by decide), List.dropWhile_cons_of_neg (by decide)]
    rw [litP_cons_self, Option.some_bind]
    apply firstSome_starCands_none
    · rw [List.dropWhile_cons_of_pos (by decide), List.dropWhile_cons_of_neg (by decide)]
      rw [litP_cons_self, Option.some_bind]
      apply firstSome_starCands_none
      · rw [List.dropWhile_cons_of_pos (by decide), List.dropWhile_cons_of_neg (by decide)]
        rw [show litsP ['T', a1, a2, a3] ('T' :: b1 :: b2 :: b3 :: rest)
            = litsP [a1, a2, a3] (b1 :: b2 :: b3 :: rest) from by
          simp [litsP, litP_cons_self]]
        rw [litsP_digits_ne hne, Option.none_bind]
      · intro c cs hc
        rw [show litsP ['T', a1, a2, a3] (c :: cs)
            = Option.bind (litP 'T' (c :: cs)) (litsP [a1, a2, a3]) from rfl]
        rw [litP_cons_ne (ne_of_space hc (by decide)), Option.none_bind,
          Option.none_bind]
    · intro c cs hc
      rw [litP_cons_ne (ne_of_space hc (by decide)), Option.none_bind]
  · intro c cs hc
    rw [litP_cons_ne (ne_of_space hc (by decide)), Option.none_bind]

end SpecImplement

namespace SpecImplement

theorem renderTaskLine_eq (t : TaskLine) :
    renderTaskLine t
      = '-' :: ' ' :: '[' :: ' ' :: ']' :: ' '
          :: (tidOf t ++ ' ' :: (markerSeg t ++ t.desc)) := by
  obtain ⟨d1, d2, d3, par, story, desc⟩ := t
  cases par <;> cases story <;>
    simp [renderTaskLine, markerSeg, tidOf, List.append_assoc]

theorem subMatchAt_at_line {tid seg desc tail : List Char} {cd : Char}
    {cs2 : List Char}
    (hdesc : desc = cd :: cs2) (hcd : isSpaceChar cd = false)
    (htid : ∃ ttl, tid = 'T' :: ttl)
    (hseg : seg = [] ∨ ∃ sgl, seg = '[' :: sgl)
    (hsegnl : ∀ c ∈ seg, c ≠ '\n')
    (hno : noEarlyOcc seg desc = true) :
    subMatchAt tid desc
        ('-' :: ' ' :: '[' :: ' ' :: ']' :: ' ' :: (tid ++ ' ' :: (seg ++ desc ++ tail)))
      = some tail := by
  obtain ⟨ttl, rfl⟩ := htid
  unfold subMatchAt
  rw [litP_cons_self, Option.some_bind]
  apply firstSome_starCands_commit
  rw [List.dropWhile_cons_of_pos (by decide), List.dropWhile_cons_of_neg (by decide)]
  simp only [litP_cons_self, Option.some_bind]
  apply firstSome_starCands_commit
  rw [List.dropWhile_cons_of_pos (by decide), List.dropWhile_cons_of_neg (by decide)]
  simp only [litP_cons_self, Option.some_bind]
  apply firstSome_starCands_commit
  rw [List.dropWhile_cons_of_pos (by decide), List.cons_append,
    List.dropWhile_cons_of_neg (by decide)]
  rw [← List.cons_append, litsP_append, Option.some_bind]
  apply firstSome_starCands_commit
  rw [List.dropWhile_cons_of_pos (by decide)]
  rcases hseg with rfl | ⟨sgl, rfl⟩
  · subst hdesc
    rw [List.nil_append, List.cons_append,
      List.dropWhile_cons_of_neg (by simp [hcd]), ← List.cons_append]
    have hlz := @lazy_desc_commit (cd :: cs2) [] tail (by rfl) (by simp)
    simpa using hlz
  · rw [List.cons_append, List.cons_append, List.dropWhile_cons_of_neg (by decide),
      ← List.cons_append, ← List.cons_append]
    exact lazy_desc_commit _ hno hsegnl

end SpecImplement

namespace SpecImplement

theorem plain_parts {t : TaskLine} (h : plainTaskLine t = true) :
    wfTaskLine t = true ∧ (∀ c ∈ t.desc, plainDescChar c = true)
      ∧ noEarlyOcc (markerSeg t) t.desc = true := by
  simp only [plainTaskLine, Bool.and_eq_true, List.all_eq_true] at h
  exact ⟨h.1.1, h.1.2, h.2⟩

theorem plain_ne {c x : Char} (hp : plainDescChar c = true)
    (hx : plainDescChar x = false) : c ≠ x := by
  intro e
  rw [e, hx] at hp
  exact Bool.false_ne_true hp

theorem markerSeg_chars {t : TaskLine} (h : wfTaskLine t = true) :
    ∀ c ∈ markerSeg t, c ≠ '\n' ∧ c ≠ '-' := by
  obtain ⟨_, _, _, hstory, _, _, _⟩ := wf_parts h
  obtain ⟨d1, d2, d3, par, story, desc⟩ := t
  simp only at hstory
  intro c hc
  cases par with
  | false =>
    cases story with
    | none => simp [markerSeg] at hc
    | some n =>
      obtain ⟨_, hdig⟩ := hstory n rfl
      simp only [markerSeg, if_neg, Bool.false_eq_true, if_false,
        List.nil_append, List.mem_cons, List.mem_append] at hc
      rcases hc with rfl | rfl | rfl | hc
      · exact ⟨by decide, by decide⟩
      · exact ⟨by decide, by decide⟩
      · exact ⟨by decide, by decide⟩
      rcases hc with hc | hc
      · have := hdig c hc
        exact ⟨digit_ne this (by decide), digit_ne this (by decide)⟩
      · simp at hc
        rcases hc with rfl | rfl
        · exact ⟨by decide, by decide⟩
        · exact ⟨by decide, by decide⟩
  | true =>
    cases story with
    | none =>
      simp only [markerSeg, if_pos, List.append_nil] at hc
      simp at hc
      rcases hc with rfl | rfl | rfl | rfl
      · exact ⟨by decide, by decide⟩
      · exact ⟨by decide, by decide⟩
      · exact ⟨by decide, by decide⟩
      · exact ⟨by decide, by decide⟩
    | some n =>
      obtain ⟨_, hdig⟩ := hstory n rfl
      simp only [markerSeg, if_pos, List.cons_append, List.nil_append,
        List.mem_cons, List.mem_append] at hc
      rcases hc with rfl | rfl | rfl | rfl | rfl | rfl | rfl | hc
      · exact ⟨by decide, by decide⟩
      · exact ⟨by decide, by decide⟩
      · exact ⟨by decide, by decide⟩
      · exact ⟨by decide, by decide⟩
      · exact ⟨by decide, by decide⟩
      · exact ⟨by decide, by decide⟩
      · exact ⟨by decide, by decide⟩
      rcases hc with hc | hc
      · have := hdig c hc
        exact ⟨digit_ne this (by decide), digit_ne this (by decide)⟩
      · simp at hc
        rcases hc with rfl | rfl
        · exact ⟨by decide, by decide⟩
        · exact ⟨by decide, by decide⟩

theorem markerSeg_head (t : TaskLine) :
    markerSeg t = [] ∨ ∃ sgl, markerSeg t = '[' :: sgl := by
  obtain ⟨d1, d2, d3, par, story, desc⟩ := t
  cases par <;> cases story <;> simp [markerSeg]

theorem subMatch_render {t : TaskLine} {r : List Char}
    (h : plainTaskLine t = true) :
    subMatchAt (tidOf t) t.desc (renderTaskLine t ++ '\n' :: r)
      = some ('\n' :: r) := by
  obtain ⟨hwf, hplain, hno⟩ := plain_parts h
  obtain ⟨_, _, _, _, ⟨cd, cs2, hdesc, hcd, _⟩, _, _⟩ := wf_parts hwf
  rw [renderTaskLine_eq]
  have he : ('-' :: ' ' :: '[' :: ' ' :: ']' :: ' '
        :: (tidOf t ++ ' ' :: (markerSeg t ++ t.desc))) ++ '\n' :: r
      = '-' :: ' ' :: '[' :: ' ' :: ']' :: ' '
        :: (tidOf t ++ ' ' :: (markerSeg t ++ t.desc ++ '\n' :: r)) := by
    simp [List.append_assoc]
  rw [he]
  exact subMatchAt_at_line hdesc hcd ⟨[t.d1, t.d2, t.d3], rfl⟩ (markerSeg_head t)
    (fun c hc => (markerSeg_chars hwf c hc).1) hno

end SpecImplement

namespace SpecImplement

theorem renderTail_nodash {t : TaskLine} (h : plainTaskLine t = true) :
    ∀ c ∈ ' ' :: '[' :: ' ' :: ']' :: ' '
        :: (tidOf t ++ ' ' :: (markerSeg t ++ t.desc)), c ≠ '-' := by
  obtain ⟨hwf, hplain, _⟩ := plain_parts h
  obtain ⟨h1, h2, h3, _, _, _, _⟩ := wf_parts hwf
  intro c hc
  simp only [tidOf, List.mem_cons, List.mem_append] at hc
  rcases hc with rfl | rfl | rfl | rfl | rfl | hc
  · decide
  · decide
  · decide
  · decide
  · decide
  rcases hc with hc | hc
  · rcases hc with rfl | rfl | rfl | rfl | hnil
    · decide
    · exact digit_ne h1 (by decide)
    · exact digit_ne h2 (by decide)
    · exact digit_ne h3 (by decide)
    · simp at hnil
  rcases hc with rfl | hc
  · decide
  rcases hc with hc | hc
  · exact (markerSeg_chars hwf c hc).2
  · exact plain_ne (hplain c hc) (by decide)

theorem checkedLine_shape {t : TaskLine} (h : plainTaskLine t = true) :
    ∃ tl, checkedLine t = '-' :: ' ' :: '[' :: 'X' :: tl
      ∧ (∀ c ∈ tl, c ≠ '-') := by
  obtain ⟨hwf, hplain, _⟩ := plain_parts h
  obtain ⟨h1, h2, h3, hstory, _, _, _⟩ := wf_parts hwf
  refine ⟨']' :: ' ' :: (tidOf t
      ++ ((if t.par then [' ', '[', 'P', ']'] else [])
        ++ ((match t.story with
            | some n => ' ' :: '[' :: (n ++ [']'])
            | none => []) ++ ' ' :: t.desc))), ?_, ?_⟩
  · obtain ⟨d1, d2, d3, par, story, desc⟩ := t
    cases par <;> cases story <;>
      simp [checkedLine, mkReplacement, markCompleted, taskLineRecord, tidOf,
        (show "- [X] ".data = ['-', ' ', '[', 'X', ']', ' '] from rfl),
        (show " [P]".data = [' ', '[', 'P', ']'] from rfl),
        (show " [".data = [' ', '['] from rfl),
        (show "]".data = [']'] from rfl),
        (show " ".data = [' '] from rfl)]
  · intro c hc
    simp only [tidOf, List.mem_cons, List.mem_append] at hc
    rcases hc with rfl | rfl | hc
    · decide
    · decide
    rcases hc with hc | hc
    · rcases hc with rfl | rfl | rfl | rfl | hnil
      · decide
      · exact digit_ne h1 (by decide)
      · exact digit_ne h2 (by decide)
      · exact digit_ne h3 (by decide)
      · simp at hnil
    rcases hc with hc | hc
    · by_cases hpar : t.par
      · rw [if_pos hpar] at hc
        simp at hc
        rcases hc with rfl | rfl | rfl | rfl <;> decide
      · rw [if_neg hpar] at hc
        simp at hc
    rcases hc with hc | hc
    · cases hst : t.story with
      | none => rw [hst] at hc; simp at hc
      | some n =>
        rw [hst] at hc
        obtain ⟨_, hdig⟩ := hstory n hst
        simp only [List.mem_cons, List.mem_append] at hc
        rcases hc with rfl | rfl | hc
        · decide
        · decide
        rcases hc with hc | hc
        · exact digit_ne (hdig c hc) (by decide)
        · simp at hc
          subst hc
          decide
    rcases hc with rfl | hc
    · decide
    · exact plain_ne (hplain c hc) (by decide)

theorem subAllAux_full_step {tid desc repl : List Char} {s rest : List Char}
    (h : subMatchAt tid desc s = some rest) :
    subAllAux tid desc repl s.length s
      = repl ++ subAllAux tid desc repl (s.length - 1) rest := by
  cases s with
  | nil =>
    unfold subMatchAt at h
    simp [litP] at h
  | cons c cs =>
    simp only [List.length_cons, Nat.add_sub_cancel]
    exact subAllAux_step_some h

theorem joinLinesDone_cons {done : List (List Char)} {l : Line} {ls : List Line} :
    joinLinesDone done (l :: ls)
      = renderLineDone done l ++ '\n' :: joinLinesDone done ls := by
  simp [joinLinesDone]

end SpecImplement

namespace SpecImplement

theorem contains_iff_mem {x : List Char} {d : List (List Char)} :
    d.contains x = true ↔ x ∈ d := by
  simp only [List.contains]
  exact ⟨List.mem_of_elem_eq_true, List.elem_eq_true_of_mem⟩

theorem subAll_skip_block {tid desc r : List Char} {b0 : Char}
    {btl J : List Char}
    (hfail : subMatchAt tid desc (b0 :: (btl ++ '\n' :: J)) = none)
    (hnd : ∀ c ∈ btl, c ≠ '-') :
    subAllAux tid desc r ((b0 :: btl) ++ '\n' :: J).length
        ((b0 :: btl) ++ '\n' :: J)
      = (b0 :: btl) ++ '\n' :: subAllAux tid desc r J.length J := by
  have e : (b0 :: btl) ++ '\n' :: J = b0 :: (btl ++ '\n' :: J) := by simp
  rw [e, show (b0 :: (btl ++ '\n' :: J)).length = (btl ++ '\n' :: J).length + 1
    from by simp]
  rw [subAllAux_step_none hfail]
  have e2 : btl ++ '\n' :: J = (btl ++ ['\n']) ++ J := by simp
  rw [e2, List.length_append, subAll_skip _ _ _ (by
    intro c hc
    rcases List.mem_append.mp hc with hc | hc
    · exact hnd c hc
    · simp at hc
      simp [hc])]
  simp

theorem subAll_lines {τ : TaskLine} (hτ : plainTaskLine τ = true) :
    ∀ (ls : List Line) (done : List (List Char)),
    (∀ l ∈ ls, plainLine l = true) →
    (∀ t', Line.task t' ∈ ls → tidOf t' = tidOf τ → t' = τ) →
    subAllAux (tidOf τ) τ.desc (checkedLine τ)
        (joinLinesDone done ls).length (joinLinesDone done ls)
      = joinLinesDone (tidOf τ :: done) ls := by
  intro ls
  induction ls with
  | nil =>
    intro done _ _
    show subAllAux _ _ _ (joinLinesDone done []).length [] = ([] : List Char)
    rw [subAllAux_nil]
  | cons l ls ih =>
    intro done hwf huniq
    have hwl := hwf l (by simp)
    have hwls : ∀ x ∈ ls, plainLine x = true := fun x hx => hwf x (by simp [hx])
    have huniqls : ∀ t', Line.task t' ∈ ls → tidOf t' = tidOf τ → t' = τ :=
      fun t' ht' => huniq t' (by simp [ht'])
    rw [joinLinesDone_cons, joinLinesDone_cons]
    cases l with
    | junk cs =>
      simp only [plainLine, Bool.and_eq_true, Bool.not_eq_true'] at hwl
      have hdash : ∀ c ∈ cs ++ ['\n'], c ≠ '-' := by
        intro c hc
        rcases List.mem_append.mp hc with hc | hc
        · exact contains_false_forall hwl.1 c hc
        · simp at hc
          simp [hc]
      simp only [renderLineDone]
      have e : cs ++ '\n' :: joinLinesDone done ls
          = (cs ++ ['\n']) ++ joinLinesDone done ls := by simp
      rw [e, List.length_append, subAll_skip _ _ _ hdash, ih done hwls huniqls]
      simp
    | task t' =>
      have hpt' : plainTaskLine t' = true := by simpa [plainLine] using hwl
      by_cases hdone : done.contains (tidOf t') = true
      · obtain ⟨tl, htl, hnd⟩ := checkedLine_shape hpt'
        have hmem : tidOf t' ∈ done := contains_iff_mem.mp hdone
        have rd1 : renderLineDone done (Line.task t') = checkedLine t' := by
          simp [renderLineDone, hmem]
        have rd2 : renderLineDone (tidOf τ :: done) (Line.task t')
            = checkedLine t' := by
          simp [renderLineDone, hmem]
        rw [rd1, rd2, htl]
        have hfail : subMatchAt (tidOf τ) τ.desc
            ('-' :: ((' ' :: '[' :: 'X' :: tl) ++ '\n' :: joinLinesDone done ls))
            = none := subMatch_checked_head
        have hndb : ∀ c ∈ ' ' :: '[' :: 'X' :: tl, c ≠ '-' := by
          intro c hc
          rcases List.mem_cons.mp hc with rfl | hc
          · decide
          rcases List.mem_cons.mp hc with rfl | hc
          · decide
          rcases List.mem_cons.mp hc with rfl | hc
          · decide
          · exact hnd c hc
        have := subAll_skip_block (r := checkedLine τ)
          (J := joinLinesDone done ls) hfail hndb
        rw [this, ih done hwls huniqls]
      · have hnotmem : tidOf t' ∉ done := by
          intro hm
          exact hdone (contains_iff_mem.mpr hm)
        by_cases hid : tidOf t' = tidOf τ
        · have ht'τ : τ = t' := (huniq t' (by simp) hid).symm
          subst ht'τ
          have rd1 : renderLineDone done (Line.task τ) = renderTaskLine τ := by
            simp [renderLineDone, hnotmem]
          have rd2 : renderLineDone (tidOf τ :: done) (Line.task τ)
              = checkedLine τ := by
            simp [renderLineDone]
          rw [rd1, rd2]
          rw [subAllAux_full_step (subMatch_render hτ)]
          congr 1
          have hlen : ('\n' :: joinLinesDone done ls).length
              ≤ (renderTaskLine τ ++ '\n' :: joinLinesDone done ls).length - 1 := by
            rw [renderTaskLine_eq]
            simp only [List.length_append, List.length_cons]
            omega
          calc subAllAux (tidOf τ) τ.desc (checkedLine τ)
                ((renderTaskLine τ ++ '\n' :: joinLinesDone done ls).length - 1)
                ('\n' :: joinLinesDone done ls)
              = subAllAux (tidOf τ) τ.desc (checkedLine τ)
                ('\n' :: joinLinesDone done ls).length
                ('\n' :: joinLinesDone done ls) :=
              subAllAux_congr _ hlen (le_refl _)
            _ = '\n' :: subAllAux (tidOf τ) τ.desc (checkedLine τ)
                (joinLinesDone done ls).length (joinLinesDone done ls) := by
              rw [show ('\n' :: joinLinesDone done ls).length
                  = (joinLinesDone done ls).length + 1 from rfl]
              exact subAllAux_step_none (subMatchAt_none_head (by decide))
            _ = '\n' :: joinLinesDone (tidOf τ :: done) ls := by
              rw [ih done hwls huniqls]
        · have hne3 : ¬(t'.d1 = τ.d1 ∧ t'.d2 = τ.d2 ∧ t'.d3 = τ.d3) := by
            intro ⟨e1, e2, e3⟩
            exact hid (by simp [tidOf, e1, e2, e3])
          have rd1 : renderLineDone done (Line.task t') = renderTaskLine t' := by
            simp [renderLineDone, hnotmem]
          have rd2 : renderLineDone (tidOf τ :: done) (Line.task t')
              = renderTaskLine t' := by
            simp [renderLineDone, hnotmem, hid]
          rw [rd1, rd2, renderTaskLine_eq t']
          have hfail : subMatchAt (tidOf τ) τ.desc
              ('-' :: ((' ' :: '[' :: ' ' :: ']' :: ' '
                :: (tidOf t' ++ ' ' :: (markerSeg t' ++ t'.desc)))
                ++ '\n' :: joinLinesDone done ls)) = none :=
            subMatch_wrongid_head hne3
          have := subAll_skip_block (r := checkedLine τ)
            (J := joinLinesDone done ls) hfail (renderTail_nodash hpt')
          rw [this, ih done hwls huniqls]

end SpecImplement

namespace SpecImplement

theorem filterMap_lineRecord (ls : List Line) :
    ls.filterMap lineRecord = (taskLines ls).map taskLineRecord := by
  induction ls with
  | nil => rfl
  | cons l ls ih =>
    cases l with
    | junk cs => simpa [taskLines, lineRecord, List.filterMap_cons] using ih
    | task t =>
      simp only [taskLines, lineRecord, List.filterMap_cons, List.map_cons] at *
      simp [ih]

theorem mem_taskLines {ls : List Line} {t : TaskLine} :
    t ∈ taskLines ls ↔ Line.task t ∈ ls := by
  unfold taskLines
  rw [List.mem_filterMap]
  constructor
  · rintro ⟨l, hl, hf⟩
    cases l with
    | junk cs => exact absurd hf (by simp)
    | task t' =>
      have : t' = t := by simpa using hf
      rw [← this]
      exact hl
  · intro h
    exact ⟨Line.task t, h, rfl⟩

theorem renderLineDone_nil (l : Line) : renderLineDone [] l = renderLine l := by
  cases l <;> rfl

theorem joinLines_eq_done (ls : List Line) :
    joinLines ls = joinLinesDone [] ls := by
  induction ls with
  | nil => rfl
  | cons l ls ih => rw [joinLines_cons, joinLinesDone_cons, renderLineDone_nil, ih]

theorem joinLinesDone_perm {d1 d2 : List (List Char)}
    (h : ∀ x, x ∈ d1 ↔ x ∈ d2) (ls : List Line) :
    joinLinesDone d1 ls = joinLinesDone d2 ls := by
  unfold joinLinesDone
  congr 1
  refine List.map_congr_left fun l _ => ?_
  cases l with
  | junk cs => rfl
  | task t =>
    by_cases hm : d1.contains (tidOf t) = true
    · have m1 : tidOf t ∈ d1 := contains_iff_mem.mp hm
      have m2 : tidOf t ∈ d2 := (h _).mp m1
      simp [renderLineDone, m1, m2]
    · have m1 : tidOf t ∉ d1 := fun hx => hm (contains_iff_mem.mpr hx)
      have m2 : tidOf t ∉ d2 := fun hx => hm (contains_iff_mem.mpr ((h _).mpr hx))
      simp [renderLineDone, m1, m2]

theorem update_go {ls : List Line} (hwf : ∀ l ∈ ls, plainLine l = true)
    (hnd : (taskIds ls).Nodup) :
    ∀ (todo : List TaskLine) (done : List (List Char)),
    (∀ t' ∈ todo, Line.task t' ∈ ls) →
    List.foldl
      (fun content t =>
        if t.completed = true then
          subAll t.id t.description (mkReplacement t) content
        else content)
      (joinLinesDone done ls)
      (todo.map fun t => markCompleted (taskLineRecord t))
      = joinLinesDone ((todo.map tidOf).reverse ++ done) ls := by
  intro todo
  induction todo with
  | nil => intro done _; simp
  | cons t rest ih =>
    intro done hsub
    have hmem : Line.task t ∈ ls := hsub t (by simp)
    have hplain_t : plainTaskLine t = true := by
      simpa [plainLine] using hwf _ hmem
    have huniq : ∀ t', Line.task t' ∈ ls → tidOf t' = tidOf t → t' = t := by
      intro t' h1 h2
      exact List.inj_on_of_nodup_map hnd (mem_taskLines.mpr h1)
        (mem_taskLines.mpr hmem) h2
    have hstep := subAll_lines hplain_t ls done hwf huniq
    simp only [List.map_cons, List.foldl_cons]
    rw [if_pos (show (markCompleted (taskLineRecord t)).completed = true from rfl)]
    rw [show subAll (markCompleted (taskLineRecord t)).id
        (markCompleted (taskLineRecord t)).description
        (mkReplacement (markCompleted (taskLineRecord t)))
        (joinLinesDone done ls) = joinLinesDone (tidOf t :: done) ls from hstep]
    rw [ih (tidOf t :: done) (fun t' ht' => hsub t' (by simp [ht']))]
    refine joinLinesDone_perm (fun x => ?_) ls
    simp only [List.map_cons, List.reverse_cons, List.mem_append,
      List.mem_cons, List.mem_reverse, List.mem_singleton]
    tauto

theorem update_canonical {ls : List Line}
    (h : ∀ l ∈ ls, plainLine l = true) (hnd : (taskIds ls).Nodup) :
    update_tasks_file (execute_implementation (parse_tasks (joinLines ls)))
        (joinLines ls)
      = joinLinesDone (taskIds ls) ls := by
  have hwfl : ∀ l ∈ ls, wfLine l = true := by
    intro l hl
    have := h l hl
    cases l with
    | junk cs => simpa [plainLine, wfLine] using this
    | task t =>
      simp only [plainLine] at this
      obtain ⟨hwf, _, _⟩ := plain_parts this
      simpa [wfLine] using hwf
  rw [parse_join hwfl, execute_implementation_eq, filterMap_lineRecord,
    List.map_map]
  unfold update_tasks_file
  rw [joinLines_eq_done]
  have hgo := update_go h hnd (taskLines ls) []
    (fun t' ht' => mem_taskLines.mp ht')
  rw [show ((taskLines ls).map (markCompleted ∘ taskLineRecord))
      = (taskLines ls).map fun t => markCompleted (taskLineRecord t) from rfl]
  rw [hgo]
  refine joinLinesDone_perm (fun x => ?_) ls
  simp [taskIds]

end SpecImplement

namespace SpecImplement

/-! ### Story provenance and remaining helpers -/

theorem matchDescEnd_fields {tid : List Char} {pm : Bool} {sm : Option (List Char)}
    {s : List Char} {r : RawTask} {rest : List Char}
    (h : matchDescEnd tid pm sm s = some (r, rest)) :
    r.tid = tid ∧ r.pmark = pm ∧ r.smark = sm := by
  unfold matchDescEnd at h
  obtain ⟨t, _, hf⟩ := firstSome_eq_some h
  by_cases he : (t.takeWhile isDotChar).isEmpty
  · simp only [he, if_pos] at hf
    exact absurd hf (by simp)
  · have he' : (t.takeWhile isDotChar).isEmpty = false := by
      revert he; cases (t.takeWhile isDotChar).isEmpty <;> simp
    simp only [he', Bool.false_eq_true, if_false] at hf
    have : r = ⟨tid, pm, sm, t.takeWhile isDotChar⟩ := by
      have := congrArg (fun o => Option.map Prod.fst o) hf
      simpa using this.symm
    simp [this]

theorem matchUSOpt_smark {tid : List Char} {pm : Bool} {s : List Char}
    {r : RawTask} {rest : List Char} (h : matchUSOpt tid pm s = some (r, rest)) :
    r.smark = none
      ∨ ∃ ds, ds ≠ [] ∧ r.smark = some ('[' :: 'U' :: 'S' :: (ds ++ [']'])) := by
  unfold matchUSOpt at h
  cases hbig :
      ((litP '[' s).bind fun s1 =>
        (litP 'U' s1).bind fun s2 =>
        (litP 'S' s2).bind fun s3 =>
        firstSome (plusSplits isDigitChar s3) fun x =>
          (litP ']' x.2).bind fun s4 =>
            matchDescEnd tid pm (some ('[' :: 'U' :: 'S' :: (x.1 ++ [']']))) s4) with
  | none =>
    rw [hbig, orElseO_none] at h
    exact Or.inl (matchDescEnd_fields h).2.2
  | some v =>
    rw [hbig, orElseO_some] at h
    cases h
    simp only [Option.bind_eq_some] at hbig
    obtain ⟨s1, _, s2, _, s3, _, hfs⟩ := hbig
    obtain ⟨x, hx, hfx⟩ := firstSome_eq_some hfs
    simp only [Option.bind_eq_some] at hfx
    obtain ⟨s4, _, hde⟩ := hfx
    refine Or.inr ⟨x.1, (plusSplits_mem hx).1, ?_⟩
    exact (matchDescEnd_fields hde).2.2

theorem matchTail2_smark {tid : List Char} {pm : Bool} {s : List Char}
    {r : RawTask} {rest : List Char} (h : matchTail2 tid pm s = some (r, rest)) :
    r.smark = none
      ∨ ∃ ds, ds ≠ [] ∧ r.smark = some ('[' :: 'U' :: 'S' :: (ds ++ [']'])) := by
  unfold matchTail2 at h
  obtain ⟨t, _, hf⟩ := firstSome_eq_some h
  exact matchUSOpt_smark hf

theorem matchTaskAt_smark {s : List Char} {r : RawTask} {rest : List Char}
    (h : matchTaskAt s = some (r, rest)) :
    r.smark = none
      ∨ ∃ ds, ds ≠ [] ∧ r.smark = some ('[' :: 'U' :: 'S' :: (ds ++ [']'])) := by
  unfold matchTaskAt at h
  simp only [Option.bind_eq_some] at h
  obtain ⟨s1, _, h⟩ := h
  obtain ⟨s2, _, h⟩ := firstSome_eq_some h
  simp only [Option.bind_eq_some] at h
  obtain ⟨s3, _, h⟩ := h
  obtain ⟨s4, _, h⟩ := firstSome_eq_some h
  simp only [Option.bind_eq_some] at h
  obtain ⟨s5, _, h⟩ := h
  obtain ⟨s6, _, h⟩ := firstSome_eq_some h
  simp only [Option.bind_eq_some] at h
  obtain ⟨s7, _, h⟩ := h
  obtain ⟨x1, _, h⟩ := h
  obtain ⟨x2, _, h⟩ := h
  obtain ⟨x3, _, h⟩ := h
  unfold matchTail1 at h
  obtain ⟨t, _, hf⟩ := firstSome_eq_some h
  cases hbig : (litsP ['[', 'P', ']'] t).bind fun t2 =>
      matchTail2 ['T', x1.1, x2.1, x3.1] true t2 with
  | none =>
    rw [hbig, orElseO_none] at hf
    exact matchTail2_smark hf
  | some v =>
    rw [hbig, orElseO_some] at hf
    cases hf
    simp only [Option.bind_eq_some] at hbig
    obtain ⟨t2, _, hm2⟩ := hbig
    exact matchTail2_smark hm2

theorem findTasksAux_smark : ∀ (fuel : Nat) (s : List Char) (r : RawTask),
    r ∈ findTasksAux fuel s →
    r.smark = none
      ∨ ∃ ds, ds ≠ [] ∧ r.smark = some ('[' :: 'U' :: 'S' :: (ds ++ [']'])) := by
  intro fuel
  induction fuel with
  | zero => intro s r h; simp [findTasksAux] at h
  | succ k ih =>
    intro s r hr
    cases s with
    | nil => simp [findTasksAux] at hr
    | cons c cs =>
      rw [findTasksAux] at hr
      cases hm : matchTaskAt (c :: cs) with
      | some v =>
        obtain ⟨r0, rest⟩ := v
        rw [hm] at hr
        rcases List.mem_cons.mp hr with rfl | hmem
        · exact matchTaskAt_smark hm
        · exact ih rest r hmem
      | none =>
        rw [hm] at hr
        exact ih cs r hr

theorem parse_story_shape {content : List Char} {t : PyTask}
    (h : t ∈ parse_tasks content) :
    t.story = none ∨ ∃ s, s ≠ [] ∧ t.story = some s := by
  unfold parse_tasks at h
  obtain ⟨r, hr, rfl⟩ := List.mem_map.mp h
  rcases findTasksAux_smark content.length content r hr with hs | ⟨ds, hds, hs⟩
  · exact Or.inl (by simp [mkTask, hs])
  · refine Or.inr ⟨ds, hds, ?_⟩
    simp [mkTask, hs, List.dropLast_concat]

theorem phaseOf_story {t : PyTask} {s : List Char} (hs : t.story = some s)
    (hne : s ≠ []) : phaseOf t = s := by
  have hfalsy : storyFalsy t = false := by
    simp [storyFalsy, hs, hne]
  unfold phaseOf
  rw [hfalsy]
  simp [hs]

theorem phaseOf_setup {t : PyTask} (hs : t.story = none)
    (hsub : hasSub "setup".data (pyLower t.description) = true) :
    phaseOf t = "setup".data := by
  have hfalsy : storyFalsy t = true := by simp [storyFalsy, hs]
  unfold phaseOf
  rw [hfalsy, hsub]
  simp

end SpecImplement

namespace SpecImplement

theorem specRuns_phase : ∀ (l : List (Nat × PyTask)), ∀ r ∈ specRuns l,
    ∀ x ∈ r, phaseOf x.2 = batchPhase r := by
  intro l
  induction l with
  | nil => simp [specRuns]
  | cons t ts ih =>
    intro r hr x hx
    rw [specRuns] at hr
    cases h : specRuns ts with
    | nil =>
      rw [h] at hr
      simp at hr
      subst hr
      simp at hx
      simp [hx, batchPhase]
    | cons r0 rs =>
      rw [h] at hr
      cases r0 with
      | nil => exact absurd (h ▸ List.mem_cons_self _ _) (specRuns_ne_nil ts)
      | cons y r0' =>
        dsimp only at hr
        by_cases hty : phaseOf t.2 = phaseOf y.2
        · rw [if_pos hty] at hr
          rcases List.mem_cons.mp hr with rfl | hmem
          · rcases List.mem_cons.mp hx with rfl | hx'
            · simp [batchPhase]
            · have := ih (y :: r0') (h ▸ List.mem_cons_self _ _) x hx'
              simp only [batchPhase] at this ⊢
              rw [this, ← hty]
          · exact ih r (by rw [h]; simp [hmem]) x hx
        · rw [if_neg hty] at hr
          rcases List.mem_cons.mp hr with rfl | hmem
          · simp at hx
            simp [hx, batchPhase]
          · exact ih r (by rw [h]; exact hmem) x hx

theorem specRuns_chain : ∀ (l : List (Nat × PyTask)),
    List.Chain' (fun a b => batchPhase a ≠ batchPhase b) (specRuns l) := by
  intro l
  induction l with
  | nil => simp [specRuns]
  | cons t ts ih =>
    rw [specRuns]
    cases h : specRuns ts with
    | nil => simp
    | cons r0 rs =>
      rw [h] at ih
      cases r0 with
      | nil => exact absurd (h ▸ List.mem_cons_self _ _) (specRuns_ne_nil ts)
      | cons y r0' =>
        dsimp only
        by_cases hty : phaseOf t.2 = phaseOf y.2
        · rw [if_pos hty]
          rcases List.chain'_cons'.mp ih with ⟨hrel, hchain⟩
          apply List.chain'_cons'.mpr
          refine ⟨?_, hchain⟩
          intro b hb
          have := hrel b hb
          simpa [batchPhase, hty] using this
        · rw [if_neg hty]
          apply List.chain'_cons.mpr
          exact ⟨by simpa [batchPhase] using hty, ih⟩

theorem checklist_pass_iff (content : List Char) :
    checklistReportsPass content = true
      ↔ ∀ it ∈ checklistItems content, it.1 = 'x' ∨ it.1 = 'X' := by
  unfold checklistReportsPass check_checklist_stats
  rw [beq_iff_eq]
  dsimp only
  rw [incomplete_fold (checklistItems content) 0 0]
  simp only [Nat.zero_add, List.length_eq_zero, List.filter_eq_nil_iff]
  constructor
  · intro h it hit
    have := h it hit
    have hcont : (['x', 'X'] : List Char).contains it.1.toLower = true := by
      revert this
      cases (['x', 'X'] : List Char).contains it.1.toLower <;> simp
    exact (box_lower_iff (checklistItems_box it hit)).mp hcont
  · intro h it hit
    have hcont := (box_lower_iff (checklistItems_box it hit)).mpr (h it hit)
    rw [hcont]
    simp

theorem map_mkTask_raw {ls : List Line} (h : ∀ l ∈ ls, wfLine l = true) :
    (ls.filterMap lineRaw).map mkTask = ls.filterMap lineRecord := by
  induction ls with
  | nil => rfl
  | cons l ls ih =>
    have hls : ∀ x ∈ ls, wfLine x = true := fun x hx => h x (by simp [hx])
    cases l with
    | junk cs =>
      simp only [List.filterMap_cons, lineRaw, lineRecord]
      exact ih hls
    | task t =>
      have hwt : wfTaskLine t = true := by
        simpa [wfLine] using h (Line.task t) (by simp)
      simp only [List.filterMap_cons, lineRaw, lineRecord, List.map_cons]
      rw [mkTask_rawOf hwt]
      exact congrArg _ (ih hls)

theorem parse_with_leading_text {p : List Char} {ls : List Line}
    (hp : ∀ c ∈ p, c ≠ '-') (h : ∀ l ∈ ls, wfLine l = true) :
    parse_tasks (p ++ joinLines ls) = ls.filterMap lineRecord := by
  unfold parse_tasks
  rw [List.length_append, scan_skip _ _ _ hp, findTasks_join ls h,
    map_mkTask_raw h]

end SpecImplement

namespace SpecImplement

/-! ### Claim theorems -/

/-- Claim C1, counterexample: on the tasks file of the claim, the
parsed record for T002 stores story "1" (the `[3:-1]` slice of
`[US1]`), not "US1", and the full run rewrites the second line to
`- [X] T002 [1] Implement feature`, not `- [X] T002 [US1] Implement
feature`.  Both facts contradict the claim at this concrete input. -/
theorem C1_counterexample :
    ((parse_tasks
        "- [ ] T001 [P] Setup project\n- [ ] T002 [US1] Implement feature\n".data).map
          (fun t => t.story) ≠ [none, some ('U' :: 'S' :: '1' :: [])])
    ∧ (runPipeline ⟨true, true, false, false, false,
        "- [ ] T001 [P] Setup project\n- [ ] T002 [US1] Implement feature\n".data⟩).2
      ≠ "- [X] T001 [P] Setup project\n- [X] T002 [US1] Implement feature\n".data := by
  decide

/-- Claim C1, amended: parsing the two-line tasks file yields exactly
two records (T001: parallel, no story; T002: sequential, story "1" —
the digits of the `[US1]` tag), and the full run succeeds and rewrites
the file to `- [X] T001 [P] Setup project` and
`- [X] T002 [1] Implement feature`. -/
theorem C1_amended :
    parse_tasks
        "- [ ] T001 [P] Setup project\n- [ ] T002 [US1] Implement feature\n".data
      = [⟨"T001".data, "Setup project".data, true, none, false⟩,
         ⟨"T002".data, "Implement feature".data, false, some ['1'], false⟩]
    ∧ runPipeline ⟨true, true, false, false, false,
        "- [ ] T001 [P] Setup project\n- [ ] T002 [US1] Implement feature\n".data⟩
      = (true,
         "- [X] T001 [P] Setup project\n- [X] T002 [1] Implement feature\n".data) := by
  decide

/-- Claim C2, counterexample: the task parsed from
`- [ ] T001 [US1] Implement feature` carries the story tag `[US1]`,
but it is grouped into the phase named "1" (the stored story value),
not into a phase named "US1". -/
theorem C2_counterexample :
    (parse_tasks "- [ ] T001 [US1] Implement feature\n".data).map phaseOf = [['1']]
    ∧ (['1'] : List Char) ≠ 'U' :: 'S' :: '1' :: [] := by
  decide

/-- Claim C2, amended: every parsed task with a story tag is grouped
into the phase named by the stored story value (the digits of the
`[USn]` marker), regardless of its description; and every parsed task
without a story tag whose description contains "setup"
(case-insensitively) is grouped into the setup phase. -/
theorem C2_amended (content : List Char) (t : PyTask)
    (h : t ∈ parse_tasks content) :
    (∀ s, t.story = some s → phaseOf t = s)
    ∧ (t.story = none → hasSub "setup".data (pyLower t.description) = true →
        phaseOf t = "setup".data) := by
  constructor
  · intro s hs
    rcases parse_story_shape h with h0 | ⟨s', hne, hs'⟩
    · rw [h0] at hs
      cases hs
    · rw [hs'] at hs
      cases hs
      exact phaseOf_story hs' hne
  · exact phaseOf_setup

/-- Claim C2, witness: the amended theorem applied to the task parsed
from `- [ ] T001 [US1] Implement feature`. -/
theorem C2_witness :
    phaseOf ⟨"T001".data, "Implement feature".data, false, some ['1'], false⟩
      = ['1'] :=
  (C2_amended "- [ ] T001 [US1] Implement feature\n".data
      ⟨"T001".data, "Implement feature".data, false, some ['1'], false⟩
      (by decide)).1 ['1'] rfl

/-- Claim C3, counterexample: in the file whose lines are
`- [ ] T001 ` (trailing space) and `- [ ] T002 x`, both lines
individually match the unchecked-checkbox-with-identifier pattern, yet
parsing the whole file yields a single record: the `\s*` of the
pattern crosses the newline and the second line is swallowed by the
first record's description, so parsing is not one record per matching
line. -/
theorem C3_counterexample :
    lineHasTaskPattern "- [ ] T001 ".data = true
    ∧ lineHasTaskPattern "- [ ] T002 x".data = true
    ∧ "- [ ] T001 \n- [ ] T002 x\n".data
        = "- [ ] T001 ".data ++ '\n' :: ("- [ ] T002 x".data ++ ['\n'])
    ∧ (parse_tasks "- [ ] T001 \n- [ ] T002 x\n".data).length = 1 := by
  decide

/-- Claim C3, amended: parsing yields one record per leftmost
non-overlapping occurrence of the pattern in the whole content, in
file order, and text without a match contributes nothing and raises
no error.  The per-line correspondence is proved for files whose
lines are each either a canonical task line with a nonempty same-line
description or a line containing no dash, so that no match can start
inside it: there parsing returns exactly the records of the task
lines in file order, and zero records when there is no task line.
Without these conditions a match may span lines, as every whitespace
class in the pattern also matches a newline, collapsing two lines
into one record. -/
theorem C3_amended (ls : List Line) (h : ∀ l ∈ ls, wfLine l = true) :
    parse_tasks (joinLines ls) = ls.filterMap lineRecord :=
  parse_join h

/-- Claim C3, witness: the amended theorem applied to a two-line file
with one heading line and one task line. -/
theorem C3_witness :
    parse_tasks (joinLines [Line.junk "# Tasks".data,
        Line.task ⟨'0', '0', '1', true, none, "Setup project".data⟩])
      = [⟨"T001".data, "Setup project".data, true, none, false⟩] := by
  have h := C3_amended [Line.junk "# Tasks".data,
      Line.task ⟨'0', '0', '1', true, none, "Setup project".data⟩] (by decide)
  simpa using h

/-- Claim C4: after `execute_implementation` every task record is
completed (the simulated execution has no failure path), and on a
well-formed tasks file with distinct identifiers the subsequent
rewrite checks every previously-unchecked task line (each such line is
replaced by its checked form, other lines are unchanged). -/
theorem C4_exec_completes_and_rewrite_checks :
    (∀ (ts : List PyTask), ∀ t ∈ execute_implementation ts, t.completed = true)
    ∧ (∀ (ls : List Line), (∀ l ∈ ls, plainLine l = true) →
        (taskIds ls).Nodup →
        update_tasks_file (execute_implementation (parse_tasks (joinLines ls)))
            (joinLines ls)
          = joinLinesDone (taskIds ls) ls) := by
  constructor
  · intro ts t ht
    rw [execute_implementation_eq] at ht
    obtain ⟨s, _, rfl⟩ := List.mem_map.mp ht
    rfl
  · intro ls h hnd
    exact update_canonical h hnd

/-- Claim C4, witness: the theorem applied to a concrete task list and
to a concrete three-line file (heading, parallel task, story task). -/
theorem C4_witness :
    (⟨"T001".data, "Setup project".data, true, none, true⟩ : PyTask).completed = true
    ∧ update_tasks_file
        (execute_implementation (parse_tasks (joinLines
          [Line.junk "# Tasks".data,
           Line.task ⟨'0', '0', '1', true, none, "Setup project".data⟩,
           Line.task ⟨'0', '0', '2', false, some ['1'], "Implement feature".data⟩])))
        (joinLines
          [Line.junk "# Tasks".data,
           Line.task ⟨'0', '0', '1', true, none, "Setup project".data⟩,
           Line.task ⟨'0', '0', '2', false, some ['1'], "Implement feature".data⟩])
      = joinLinesDone (taskIds
          [Line.junk "# Tasks".data,
           Line.task ⟨'0', '0', '1', true, none, "Setup project".data⟩,
           Line.task ⟨'0', '0', '2', false, some ['1'], "Implement feature".data⟩])
          [Line.junk "# Tasks".data,
           Line.task ⟨'0', '0', '1', true, none, "Setup project".data⟩,
           Line.task ⟨'0', '0', '2', false, some ['1'], "Implement feature".data⟩] :=
  ⟨C4_exec_completes_and_rewrite_checks.1
      [⟨"T001".data, "Setup project".data, true, none, false⟩]
      ⟨"T001".data, "Setup project".data, true, none, true⟩ (by decide),
   C4_exec_completes_and_rewrite_checks.2
      [Line.junk "# Tasks".data,
       Line.task ⟨'0', '0', '1', true, none, "Setup project".data⟩,
       Line.task ⟨'0', '0', '2', false, some ['1'], "Implement feature".data⟩]
      (by decide) (by decide)⟩

end SpecImplement

namespace SpecImplement

/-- Claim C5, counterexample: in the parsed file whose tasks are
T001 (story tag, sequential), T002 (setup description), T003 (story
tag, parallel), tasks T001 and T003 belong to the same phase "1", but
the execution sequence runs sequential T001 before parallel T003: the
batching loop flushes on every phase change, so a phase with
non-contiguous tasks is processed once per run and parallel tasks do
not globally precede sequential ones within a phase. -/
theorem C5_counterexample :
    noSeqBeforePar (execSeq (parse_tasks
        "- [ ] T001 [US1] Implement login\n- [ ] T002 Setup database\n- [ ] T003 [P] [US1] Implement logout\n".data))
      = false
    ∧ (parse_tasks
        "- [ ] T001 [US1] Implement login\n- [ ] T002 Setup database\n- [ ] T003 [P] [US1] Implement logout\n".data).map
          (fun t => (t.id, t.is_parallel, phaseOf t))
      = [("T001".data, false, ['1']), ("T002".data, false, "setup".data),
         ("T003".data, true, ['1'])]
    ∧ (execSeq (parse_tasks
        "- [ ] T001 [US1] Implement login\n- [ ] T002 Setup database\n- [ ] T003 [P] [US1] Implement logout\n".data)).map
          (fun x => x.2.id)
      = ["T001".data, "T002".data, "T003".data] := by
  decide

/-- Claim C5, amended: the executor processes the maximal runs of
consecutive same-phase tasks, in file order (a phase whose tasks are
not contiguous is processed once per run); within each run the
parallel-flagged tasks are executed before the sequential ones.
`specRuns` is the run decomposition written from the specification's
words; the code's batching loop computes exactly these runs, every run
is nonempty and phase-constant, and adjacent runs have different
phases. -/
theorem C5_amended (ts : List PyTask) :
    batches ts = specRuns ts.enum
    ∧ (specRuns ts.enum).flatten = ts.enum
    ∧ execSeq ts = ((specRuns ts.enum).map phaseExecOrder).flatten
    ∧ (∀ r ∈ specRuns ts.enum, r ≠ [] ∧ ∀ x ∈ r, phaseOf x.2 = batchPhase r)
    ∧ List.Chain' (fun a b => batchPhase a ≠ batchPhase b) (specRuns ts.enum) := by
  refine ⟨batches_eq_specRuns ts, specRuns_flatten _, ?_, ?_, specRuns_chain _⟩
  · unfold execSeq
    rw [batches_eq_specRuns]
  · intro r hr
    exact ⟨fun e => specRuns_ne_nil _ (e ▸ hr), specRuns_phase _ r hr⟩

/-- Claim C5, witness: the amended theorem applied to the
three-task counterexample file. -/
theorem C5_witness :
    batches (parse_tasks
        "- [ ] T001 [US1] Implement login\n- [ ] T002 Setup database\n- [ ] T003 [P] [US1] Implement logout\n".data)
      = specRuns (parse_tasks
        "- [ ] T001 [US1] Implement login\n- [ ] T002 Setup database\n- [ ] T003 [P] [US1] Implement logout\n".data).enum :=
  (C5_amended _).1

/-- Claim C6: with feature directory `specs/demo` and an explicit
`--tasks-file custom/my_tasks.md` override, the pipeline's context
loading unconditionally reassigns the tasks path to
`specs/demo/tasks.md`, so the run reads and rewrites that file rather
than the overridden path — the CLI override is dead.  (The code's own
comment says the supplied tasks file should be used directly.) -/
theorem C6_override_ignored :
    pipelineTasksPath (some "specs/demo".data) (some "custom/my_tasks.md".data) none
      = some "specs/demo/tasks.md".data
    ∧ some "specs/demo/tasks.md".data ≠ some ("custom/my_tasks.md".data) := by
  decide

/-- Claim C7: for every checklist file content, the per-file counters
satisfy total = completed + incomplete. -/
theorem C7_counts (content : List Char) :
    (check_checklist_stats content).total
      = (check_checklist_stats content).completed
        + (check_checklist_stats content).incomplete := by
  unfold check_checklist_stats
  dsimp only
  have h := count_fold_sum (checklistItems content) 0 0
  omega

/-- Claim C8: a checklist file reports PASS exactly when it has no
incomplete checkbox item, an item counting as complete when its marker
is `x` case-insensitively; it reports FAIL exactly when at least one
item has the blank marker. -/
theorem C8_pass_iff (content : List Char) :
    (checklistReportsPass content = true
      ↔ ∀ it ∈ checklistItems content, it.1 = 'x' ∨ it.1 = 'X')
    ∧ (checklistReportsPass content = false
      ↔ ∃ it ∈ checklistItems content, it.1 = ' ') := by
  have h1 := checklist_pass_iff content
  refine ⟨h1, ?_⟩
  rw [← Bool.not_eq_true, h1]
  constructor
  · intro h
    push_neg at h
    obtain ⟨it, hit, hne⟩ := h
    refine ⟨it, hit, ?_⟩
    have hbox := checklistItems_box it hit
    simp only [isBoxChar, Bool.or_eq_true, decide_eq_true_eq] at hbox
    rcases hbox with (h0 | h0) | h0
    · exact h0
    · exact absurd h0 hne.1
    · exact absurd h0 hne.2
  · rintro ⟨it, hit, hsp⟩ hall
    have := hall it hit
    rw [hsp] at this
    rcases this with h0 | h0 <;> exact absurd h0 (by decide)

/-- Claim C9: when the checklist and load stages pass, an error raised
in the tasks-file update stage is caught and only logged, and the run
still reports success (exit code 0); an error in the parse stage or in
the execution stage makes the run report failure (exit code 1). -/
theorem C9_error_handling (env : RunEnv)
    (hpass : env.checklists_pass = true) (hload : env.load_ok = true) :
    (env.parse_error = false → env.exec_error = false →
      env.update_error = true → mainExitCode env = 0)
    ∧ (env.parse_error = true → mainExitCode env = 1)
    ∧ (env.parse_error = false → env.exec_error = true →
        mainExitCode env = 1) := by
  refine ⟨?_, ?_, ?_⟩
  · intro h1 h2 h3
    simp [mainExitCode, runPipeline, hpass, hload, h1, h2, h3]
  · intro h1
    simp [mainExitCode, runPipeline, hpass, hload, h1]
  · intro h1 h2
    simp [mainExitCode, runPipeline, hpass, hload, h1, h2]

/-- Claim C9, witness: the three exit codes at concrete environments. -/
theorem C9_witness :
    mainExitCode ⟨true, true, false, false, true, "- [ ] T001 x\n".data⟩ = 0
    ∧ mainExitCode ⟨true, true, true, false, false, "- [ ] T001 x\n".data⟩ = 1
    ∧ mainExitCode ⟨true, true, false, true, false, "- [ ] T001 x\n".data⟩ = 1 :=
  ⟨(C9_error_handling _ rfl rfl).1 rfl rfl rfl,
   (C9_error_handling _ rfl rfl).2.1 rfl,
   (C9_error_handling _ rfl rfl).2.2 rfl rfl⟩

/-- Claim C10: the task parser is unanchored: any text without a `-`
before a well-formed task line — indentation, or arbitrary preceding
text on the same line — does not prevent the match, so records are
produced for occurrences anywhere within a line, not only for lines
beginning with the checkbox marker. -/
theorem C10_unanchored (p : List Char) (ls : List Line)
    (hp : ∀ c ∈ p, c ≠ '-') (h : ∀ l ∈ ls, wfLine l = true) :
    parse_tasks (p ++ joinLines ls) = ls.filterMap lineRecord :=
  parse_with_leading_text hp h

/-- Claim C10, witness: an indented task line and a task line preceded
by other text both produce their record. -/
theorem C10_witness :
    parse_tasks ("  ".data
        ++ joinLines [Line.task ⟨'0', '0', '3', false, none, "Polish docs".data⟩])
      = [⟨"T003".data, "Polish docs".data, false, none, false⟩]
    ∧ parse_tasks ("note: ".data
        ++ joinLines [Line.task ⟨'0', '0', '4', false, none, "Review".data⟩])
      = [⟨"T004".data, "Review".data, false, none, false⟩] := by
  constructor
  · have h := C10_unanchored "  ".data
      [Line.task ⟨'0', '0', '3', false, none, "Polish docs".data⟩]
      (by decide) (by decide)
    simpa using h
  · have h := C10_unanchored "note: ".data
      [Line.task ⟨'0', '0', '4', false, none, "Review".data⟩]
      (by decide) (by decide)
    simpa using h

end SpecImplement
